import Mathlib

/-!
Verification of the attribute-level DynamoDB encryption client
(cloudopsy/dynamodb-encryption-go) against its natural-language
specification.

The development is a shallow embedding of the Go sources:

  - pkg/serde (serializer / deserializer): the self-describing binary
    attribute-value codec, embedded over byte lists (Go strings and byte
    slices are byte sequences, modelled as List Nat with values below 256).
  - pkg/utils: the JSON based AttributeValueToBytes / BytesToAttributeValue
    pair used by the client, embedded at the level of JSON documents
    (encoding/json emits a byte rendering of the document and parses it
    back; that rendering is injective, so the document level is faithful).
  - pkg/client (EncryptedClient): encryptItem / decryptItem /
    constructMaterialName over association-list items.
  - pkg/materials (wrapped and raw materials) and pkg/provider
    (AwsKmsCryptographicMaterialsProvider, KeyMaterialStore).

External cryptographic primitives (Tink AEAD keysets, ECDSA signatures,
SHA-256) are not part of the repository; they are modelled as idealized
primitives: an AEAD ciphertext records the key identity, the fresh nonce,
the plaintext and the associated data (Tink AES-GCM output carries the
keyset output prefix and a fresh random nonce), key generation draws a
fresh key identity from a counter, and the hash is an injective tagging
function.  Each such model is documented at its definition.
-/

set_option maxHeartbeats 1000000

namespace DDBEnc

/-! ## Go byte strings -/

/-- A Go string or byte slice: a sequence of bytes.  Byte values produced by
the embedded code are below 256 by construction; the codec proofs do not
depend on the bound. -/
abbrev GoStr := List Nat

/-- Bytes of an ASCII string literal (used to write byte-list literals
readably). -/
def ascii (s : String) : GoStr := s.data.map Char.toNat

/-- Lexicographic byte order, the order computed by Go bytes.Compare and by
Go string comparison (both compare byte by byte, shorter prefix first). -/
def bytesLe : GoStr → GoStr → Bool
  | [], _ => true
  | _ :: _, [] => false
  | a :: as, b :: bs => if a < b then true else if b < a then false else bytesLe as bs

/-- The propositional form of lexicographic byte order. -/
def BytesLE (a b : GoStr) : Prop := bytesLe a b = true

instance : DecidableRel BytesLE := fun a b => by
  unfold BytesLE; infer_instance

theorem bytesLe_total : ∀ a b : GoStr, bytesLe a b = true ∨ bytesLe b a = true := by
  intro a
  induction a with
  | nil => intro b; left; rfl
  | cons x as ih =>
    intro b
    cases b with
    | nil => right; rfl
    | cons y bs =>
      simp only [bytesLe]
      rcases Nat.lt_trichotomy x y with h | h | h
      · left; simp [h]
      · subst h
        rcases ih bs with h2 | h2 <;> simp [h2, Nat.lt_irrefl]
      · right; simp [h, Nat.lt_asymm h]

theorem bytesLe_trans :
    ∀ {a b c : GoStr}, bytesLe a b = true → bytesLe b c = true → bytesLe a c = true := by
  intro a
  induction a with
  | nil => intro b c _ _; rfl
  | cons x as ih =>
    intro b c hab hbc
    cases b with
    | nil => simp [bytesLe] at hab
    | cons y bs =>
      cases c with
      | nil => simp [bytesLe] at hbc
      | cons z cs =>
        simp only [bytesLe] at hab hbc ⊢
        rcases Nat.lt_trichotomy x y with h1 | h1 | h1
        · rcases Nat.lt_trichotomy y z with h2 | h2 | h2
          · simp [Nat.lt_trans h1 h2]
          · subst h2; simp [h1]
          · exfalso; simp [Nat.lt_asymm h2, if_neg (Nat.lt_irrefl _)] at hbc
            omega
        · subst h1
          rcases Nat.lt_trichotomy x z with h2 | h2 | h2
          · simp [h2]
          · subst h2
            simp only [if_neg (Nat.lt_irrefl _)] at hab hbc ⊢
            exact ih hab hbc
          · exfalso
            simp [Nat.lt_asymm h2, if_neg (Nat.lt_irrefl _)] at hbc
            omega
        · exfalso
          simp [Nat.lt_asymm h1, if_neg (Nat.lt_irrefl _)] at hab
          omega

theorem bytesLe_antisymm :
    ∀ {a b : GoStr}, bytesLe a b = true → bytesLe b a = true → a = b := by
  intro a
  induction a with
  | nil =>
    intro b _ hba
    cases b with
    | nil => rfl
    | cons y bs => simp [bytesLe] at hba
  | cons x as ih =>
    intro b hab hba
    cases b with
    | nil => simp [bytesLe] at hab
    | cons y bs =>
      simp only [bytesLe] at hab hba
      rcases Nat.lt_trichotomy x y with h | h | h
      · exfalso; simp [Nat.lt_asymm h, if_neg (Nat.lt_irrefl _)] at hba; omega
      · subst h
        simp only [if_neg (Nat.lt_irrefl _)] at hab hba
        exact congrArg (x :: ·) (ih hab hba)
      · exfalso; simp [Nat.lt_asymm h, if_neg (Nat.lt_irrefl _)] at hab; omega

instance : IsTotal GoStr BytesLE := ⟨bytesLe_total⟩
instance : IsTrans GoStr BytesLE := ⟨fun _ _ _ => bytesLe_trans⟩
instance : IsAntisymm GoStr BytesLE := ⟨fun _ _ => bytesLe_antisymm⟩
instance : IsRefl GoStr BytesLE := ⟨fun a => by
  induction a with
  | nil => rfl
  | cons x as ih => simpa [BytesLE, bytesLe, Nat.lt_irrefl] using ih⟩

/-! ## pkg/serde: the binary attribute-value codec

DynamoDB attribute values, the tagged union the codec operates on
(Go type github.com/aws/aws-sdk-go-v2/service/dynamodb/types.AttributeValue
with its ten Member variants).  Strings, number strings and set members are
Go strings, i.e. byte sequences; a map is a Go map, carried here as an
association list whose order models the (unobservable) insertion order. -/

inductive AttributeValue where
  | B (b : GoStr)
  | N (n : GoStr)
  | S (s : GoStr)
  | BOOL (b : Bool)
  | NULL
  | L (xs : List AttributeValue)
  | M (entries : List (GoStr × AttributeValue))
  | BS (xs : List GoStr)
  | NS (xs : List GoStr)
  | SS (xs : List GoStr)

/-- Tag byte codes from pkg/serde/serde.go. -/
def tagBinary : Nat := 98
def tagNumber : Nat := 110
def tagString : Nat := 115
def tagBoolean : Nat := 63
def tagNull : Nat := 0
def tagList : Nat := 76
def tagMap : Nat := 77
def tagBinarySet : Nat := 66
def tagNumberSet : Nat := 78
def tagStringSet : Nat := 83

/-- encodeLength: the 4 big-endian bytes of uint32(length)
(serde.go encodeLength; the Go int is truncated to uint32). -/
def encodeLength (length : Nat) : GoStr :=
  [length / 2 ^ 24 % 256, length / 2 ^ 16 % 256, length / 2 ^ 8 % 256, length % 256]

/-- encodeValue: length-prefixed bytes (serde.go encodeValue). -/
def encodeValue (value : GoStr) : GoStr :=
  encodeLength value.length ++ value

/-! ### transformNumberValue

The Go serializer canonicalizes a number string with
strconv.FormatFloat(strconv.ParseFloat(value, 64), 'f', -1, 64): parse to a
float64 and re-emit the shortest fixed-notation decimal.  float64 semantics
are not embeddable here; the model below performs the exact decimal
normalization this composition computes on its rounding-free domain: strip
an explicit plus sign and an exponent, strip leading integer zeros and
trailing fraction zeros, drop an empty fraction.  The composition through
float64 agrees with this exact normalization for every decimal of at most
15 significant digits within the normal float64 range (the classical 15
digit round-trip guarantee); the predicate NumberSafe below confines every
theorem that relies on the model to that domain.  The parser parseDec below
covers only plain decimal literals; strconv.ParseFloat additionally accepts
signed, case-insensitive Inf, Infinity and NaN words, digit strings with
underscores such as 1_000, and hexadecimal floats such as 0x1p-2, and the
Go code rewrites all of those (to +Inf, NaN, 1000, 0.25, ...), while on a
string ParseFloat rejects outright the Go code panics.  The model returns
any parseDec-rejected string unchanged, so NumberSafe requires parseDec to
succeed: every string outside the plain-decimal grammar, whether Go would
rewrite it or panic on it, is outside the domain of every theorem that
relies on the model.  A NumberSafe string is moreover a fixed point of the
exact normalizer, hence exponent-free and at most 38 characters, so its
value lies well inside the normal float64 range and ParseFloat accepts it
with the exact decimal value. -/

/-- Decomposed decimal literal: sign, integer digits, fraction digits,
decimal exponent. -/
structure DecParts where
  neg : Bool
  intPart : List Nat
  fracPart : List Nat
  exp : Int
  deriving Repr, DecidableEq

def isDigit (c : Nat) : Bool := 48 ≤ c && c ≤ 57

/-- Parse the Go float syntax accepted by strconv.ParseFloat restricted to
decimal literals: [+-] digits [. digits] [(e|E) [+-] digits], requiring at
least one digit in the mantissa. -/
def parseDec (s : GoStr) : Option DecParts :=
  let (neg, s1) :=
    match s with
    | 43 :: t => (false, t)
    | 45 :: t => (true, t)
    | _ => (false, s)
  let ip := s1.takeWhile isDigit
  let s2 := s1.dropWhile isDigit
  let (fp, s3) :=
    match s2 with
    | 46 :: t => (t.takeWhile isDigit, t.dropWhile isDigit)
    | _ => ([], s2)
  if ip.length + fp.length = 0 then none
  else
    match s3 with
    | [] => some ⟨neg, ip, fp, 0⟩
    | e :: t =>
      if e = 101 ∨ e = 69 then
        let (eneg, t1) :=
          match t with
          | 43 :: t2 => (false, t2)
          | 45 :: t2 => (true, t2)
          | _ => (false, t)
        let ed := t1.takeWhile isDigit
        if ed.length = 0 ∨ t1.dropWhile isDigit ≠ [] then none
        else
          let ev : Nat := ed.foldl (fun acc d => acc * 10 + (d - 48)) 0
          some ⟨neg, ip, fp, if eneg then -(ev : Int) else (ev : Int)⟩
      else none

/-- Format the decimal value of the parts in canonical fixed notation:
minimum digits, no plus sign, no exponent, no trailing fraction zeros, no
leading integer zeros (a bare zero integer part is kept). -/
def formatDecCanonical (p : DecParts) : GoStr :=
  let ds := p.intPart ++ p.fracPart
  let pointPos : Int := (p.intPart.length : Int) + p.exp
  let intDigits : List Nat :=
    if pointPos ≤ 0 then []
    else if pointPos ≥ (ds.length : Int) then ds ++ List.replicate (pointPos - ds.length).toNat 48
    else ds.take pointPos.toNat
  let fracDigits : List Nat :=
    if pointPos ≤ 0 then List.replicate (-pointPos).toNat 48 ++ ds
    else if pointPos ≥ (ds.length : Int) then []
    else ds.drop pointPos.toNat
  let intCanon :=
    match intDigits.dropWhile (· = 48) with
    | [] => [48]
    | l => l
  let fracCanon := (fracDigits.reverse.dropWhile (· = 48)).reverse
  (if p.neg then [45] else []) ++ intCanon ++
    (if fracCanon = [] then [] else 46 :: fracCanon)

/-- transformNumberValue from the serializer (see the section comment for
the float64 modelling). -/
def transformNumberValue (value : GoStr) : GoStr :=
  match parseDec value with
  | some p => formatDecCanonical p
  | none => value

/-- Count of significant decimal digits: mantissa digits with leading and
trailing zeros stripped. -/
def sigDigits (s : GoStr) : Nat :=
  (((s.filter isDigit).dropWhile (· = 48)).reverse.dropWhile (· = 48)).length

/-- The domain on which the exact-decimal model of transformNumberValue
provably agrees with Go's float64 parse/format composition: the string is
a plain decimal literal (parseDec succeeds, which excludes the Inf, NaN,
underscored and hexadecimal spellings ParseFloat also accepts and rewrites,
and the strings it rejects, where Go panics), it is already canonical, it
has at most 15 significant digits, and it is short enough that its value
lies well inside the normal float64 range. -/
def NumberSafe (s : GoStr) : Prop :=
  transformNumberValue s = s ∧ sigDigits s ≤ 15 ∧ s.length ≤ 38 ∧
    (parseDec s).isSome = true

instance : DecidablePred NumberSafe := fun s => by
  unfold NumberSafe; infer_instance

/-! ### The serializer (Serializer.SerializeAttribute and helpers) -/

/-- Key order on keyed pairs: compare the first components with Go string
comparison (byte order).  The second components are not consulted. -/
def fstLE {A : Type} (p q : GoStr × A) : Prop := BytesLE p.1 q.1

instance {A : Type} : DecidableRel (fstLE (A := A)) :=
  fun p q => inferInstanceAs (Decidable (BytesLE p.1 q.1))

instance {A : Type} : IsTotal (GoStr × A) fstLE := ⟨fun p q => bytesLe_total p.1 q.1⟩
instance {A : Type} : IsTrans (GoStr × A) fstLE := ⟨fun _ _ _ => bytesLe_trans⟩

/-- sortedKeyMap: the map entries arranged in ascending key order.  The Go
code collects the entries of the (unordered) map and sorts them with
sort.Slice on key <; a Go map has unique keys, so any correct sort yields
this single key-ordered arrangement, computed here by insertion sort. -/
def sortedKeyMap (m : List (GoStr × AttributeValue)) : List (GoStr × AttributeValue) :=
  List.insertionSort fstLE m

def serializeBinary (value : GoStr) : GoStr := [0, tagBinary] ++ encodeValue value

def serializeNumber (value : GoStr) : GoStr :=
  [0, tagNumber] ++ encodeValue (transformNumberValue value)

def serializeString (value : GoStr) : GoStr := [0, tagString] ++ encodeValue value

def serializeBoolean (value : Bool) : GoStr := [0, tagBoolean, if value then 1 else 0]

def serializeNull : GoStr := [0, tagNull]

/-- serializeSet: count, then the members (each transformed by the
per-variant transform function) length-prefixed in ascending byte order
(sort.Slice on bytes.Compare). -/
def serializeSet (tag : Nat) (transform : GoStr → GoStr) (value : List GoStr) : GoStr :=
  [0, tag] ++ encodeLength value.length ++
    ((List.insertionSort BytesLE (value.map transform)).map encodeValue).flatten

mutual

/-- SerializeAttribute: dispatch on the variant; lists serialize their
members in order, maps serialize their entries in ascending key order, sets
serialize their members sorted after the per-variant transform.

On maps the Go code first sorts the entries by key (sortedKeyMap) and then
serializes each entry in that order; since the sort inspects only the keys,
it commutes with serializing the entries, and the recursion here serializes
the entries first (keeping each entry tagged with its key) and sorts the
results, so that the recursion is by structure.  The lemma
serializeAttribute_M_sortFirst recovers the literal Go shape. -/
def serializeAttribute : AttributeValue → GoStr
  | .B b => serializeBinary b
  | .N n => serializeNumber n
  | .S s => serializeString s
  | .BOOL b => serializeBoolean b
  | .NULL => serializeNull
  | .L xs => [0, tagList] ++ encodeLength xs.length ++ serializeMembers xs
  | .M e =>
    [0, tagMap] ++ encodeLength e.length ++
      ((List.insertionSort fstLE (serializeKeyedEntries e)).map Prod.snd).flatten
  | .BS xs => serializeSet tagBinarySet id xs
  | .NS xs => serializeSet tagNumberSet transformNumberValue xs
  | .SS xs => serializeSet tagStringSet id xs

/-- The members of a list attribute, serialized in order and concatenated. -/
def serializeMembers : List AttributeValue → GoStr
  | [] => []
  | v :: vs => serializeAttribute v ++ serializeMembers vs

/-- Each map entry serialized (encoded key followed by encoded value),
tagged with its raw key for the key sort. -/
def serializeKeyedEntries : List (GoStr × AttributeValue) → List (GoStr × GoStr)
  | [] => []
  | (k, v) :: rest =>
    (k, serializeString k ++ serializeAttribute v) :: serializeKeyedEntries rest

end

/-! ### The deserializer (Deserializer.DeserializeAttribute and helpers)

Go reads from a bytes.Reader; the embedding passes the remaining input
explicitly and returns the unread suffix.  A decode error (short read,
non-null reserved byte, unknown tag, non-string map key) is none.  The
recursive deserializer carries fuel: the Go recursion terminates because
every recursive call consumes input, and the top-level entry point hands
the parser more fuel than the nesting depth any input of its length can
express. -/

/-- decodeByte: one byte (io.ReadFull of a one-byte buffer). -/
def decodeByte : GoStr → Option (Nat × GoStr)
  | [] => none
  | b :: r => some (b, r)

/-- decodeLength: a 4-byte big-endian unsigned length. -/
def decodeLength : GoStr → Option (Nat × GoStr)
  | b0 :: b1 :: b2 :: b3 :: r =>
    some (b0 * 2 ^ 24 + b1 * 2 ^ 16 + b2 * 2 ^ 8 + b3, r)
  | _ => none

/-- decodeValue: a length, then that many bytes. -/
def decodeValue (s : GoStr) : Option (GoStr × GoStr) :=
  match decodeLength s with
  | none => none
  | some (n, r) => if r.length < n then none else some (r.take n, r.drop n)

/-- decodeTag: the null reserved byte, then the tag byte. -/
def decodeTag (s : GoStr) : Option (Nat × GoStr) :=
  match decodeByte s with
  | none => none
  | some (reservedByte, r) =>
    if reservedByte ≠ 0 then none
    else match decodeByte r with
      | none => none
      | some (tag, r2) => some (tag, r2)

/-- The member loop shared by the three set deserializers: count
length-prefixed members in input order. -/
def decodeSetMembers : Nat → GoStr → Option (List GoStr × GoStr)
  | 0, s => some ([], s)
  | n + 1, s =>
    match decodeValue s with
    | none => none
    | some (m, r) =>
      match decodeSetMembers n r with
      | none => none
      | some (ms, r2) => some (m :: ms, r2)

mutual

/-- deserialize: tag dispatch.  Scalars mirror deserializeBinary /
deserializeNumber / deserializeString / deserializeBoolean /
deserializeNull; composites read a count and recurse; the three set
variants read raw members and sort them ascending (sort.Slice on
bytes.Compare, sort.Strings).  A map is assembled from the parsed
key/value pairs in input order; the Go code inserts them into a Go map,
which collapses duplicate keys, a case the serializer never emits since its
keys are strictly ascending. -/
def deserialize : Nat → GoStr → Option (AttributeValue × GoStr)
  | 0, _ => none
  | fuel + 1, s =>
    match decodeTag s with
    | none => none
    | some (tag, r) =>
      if tag = tagBinary then
        match decodeValue r with
        | none => none
        | some (v, r2) => some (.B v, r2)
      else if tag = tagNumber then
        match decodeValue r with
        | none => none
        | some (v, r2) => some (.N v, r2)
      else if tag = tagString then
        match decodeValue r with
        | none => none
        | some (v, r2) => some (.S v, r2)
      else if tag = tagBoolean then
        match decodeByte r with
        | none => none
        | some (b, r2) => some (.BOOL (b ≠ 0), r2)
      else if tag = tagNull then
        some (.NULL, r)
      else if tag = tagList then
        match decodeLength r with
        | none => none
        | some (n, r2) =>
          match deserializeMembers fuel n r2 with
          | none => none
          | some (vs, r3) => some (.L vs, r3)
      else if tag = tagMap then
        match decodeLength r with
        | none => none
        | some (n, r2) =>
          match deserializeEntries fuel n r2 with
          | none => none
          | some (es, r3) => some (.M es, r3)
      else if tag = tagBinarySet then
        match decodeLength r with
        | none => none
        | some (n, r2) =>
          match decodeSetMembers n r2 with
          | none => none
          | some (ms, r3) => some (.BS (List.insertionSort BytesLE ms), r3)
      else if tag = tagNumberSet then
        match decodeLength r with
        | none => none
        | some (n, r2) =>
          match decodeSetMembers n r2 with
          | none => none
          | some (ms, r3) => some (.NS (List.insertionSort BytesLE ms), r3)
      else if tag = tagStringSet then
        match decodeLength r with
        | none => none
        | some (n, r2) =>
          match decodeSetMembers n r2 with
          | none => none
          | some (ms, r3) => some (.SS (List.insertionSort BytesLE ms), r3)
      else none
termination_by fuel _ => (fuel, 0)

/-- The list-member loop of deserializeList. -/
def deserializeMembers : Nat → Nat → GoStr → Option (List AttributeValue × GoStr)
  | _, 0, s => some ([], s)
  | fuel, n + 1, s =>
    match deserialize fuel s with
    | none => none
    | some (v, r) =>
      match deserializeMembers fuel n r with
      | none => none
      | some (vs, r2) => some (v :: vs, r2)
termination_by fuel n _ => (fuel, n + 1)

/-- The entry loop of deserializeMap: each entry is a deserialized key,
required to be a string attribute, followed by a deserialized value. -/
def deserializeEntries : Nat → Nat → GoStr → Option (List (GoStr × AttributeValue) × GoStr)
  | _, 0, s => some ([], s)
  | fuel, n + 1, s =>
    match deserialize fuel s with
    | none => none
    | some (.S k, r) =>
      match deserialize fuel r with
      | none => none
      | some (v, r2) =>
        match deserializeEntries fuel n r2 with
        | none => none
        | some (es, r3) => some ((k, v) :: es, r3)
    | some _ => none
termination_by fuel n _ => (fuel, n + 1)

end

/-- DeserializeAttribute: reject empty input, then parse one attribute from
the front of the data (the Go reader ignores trailing bytes).  The fuel is
one more than the input length, which exceeds the nesting depth reachable
by any input of that length. -/
def deserializeAttribute (data : GoStr) : Option AttributeValue :=
  if data.isEmpty then none
  else
    match deserialize (data.length + 1) data with
    | none => none
    | some (v, _) => some v

/-! ### Order normalization

fullNorm is the order normalization on attribute values induced by the
specification's reading of equality: sets and map entries have no
client-observable order, so both are put in ascending order, recursively.
Two values denote the same DynamoDB value exactly when their
normalizations are equal. -/

mutual

def fullNorm : AttributeValue → AttributeValue
  | .B b => .B b
  | .N n => .N n
  | .S s => .S s
  | .BOOL b => .BOOL b
  | .NULL => .NULL
  | .L xs => .L (fullNormMembers xs)
  | .M e => .M (List.insertionSort fstLE (fullNormEntries e))
  | .BS xs => .BS (List.insertionSort BytesLE xs)
  | .NS xs => .NS (List.insertionSort BytesLE xs)
  | .SS xs => .SS (List.insertionSort BytesLE xs)

def fullNormMembers : List AttributeValue → List AttributeValue
  | [] => []
  | v :: vs => fullNorm v :: fullNormMembers vs

def fullNormEntries : List (GoStr × AttributeValue) → List (GoStr × AttributeValue)
  | [] => []
  | (k, v) :: rest => (k, fullNorm v) :: fullNormEntries rest

end

/-! normAttr is what the deserializer provably returns on the serializer's
output: like fullNorm, but numbers additionally carry the serializer's
canonicalization (the deserializer returns the transformed bytes the
serializer emitted). -/

mutual

def normAttr : AttributeValue → AttributeValue
  | .B b => .B b
  | .N n => .N (transformNumberValue n)
  | .S s => .S s
  | .BOOL b => .BOOL b
  | .NULL => .NULL
  | .L xs => .L (normAttrMembers xs)
  | .M e => .M (List.insertionSort fstLE (normAttrEntries e))
  | .BS xs => .BS (List.insertionSort BytesLE xs)
  | .NS xs => .NS (List.insertionSort BytesLE (xs.map transformNumberValue))
  | .SS xs => .SS (List.insertionSort BytesLE xs)

def normAttrMembers : List AttributeValue → List AttributeValue
  | [] => []
  | v :: vs => normAttr v :: normAttrMembers vs

def normAttrEntries : List (GoStr × AttributeValue) → List (GoStr × AttributeValue)
  | [] => []
  | (k, v) :: rest => (k, normAttr v) :: normAttrEntries rest

end

/-! ### Well-formedness

wfA bounds every length the serializer truncates to uint32 (Go string and
slice lengths are int64 in general; the codec writes them as uint32), and
requires map keys to be distinct, as they are in a Go map. -/

mutual

def wfA : AttributeValue → Bool
  | .B b => b.length < 2 ^ 32
  | .N n => (transformNumberValue n).length < 2 ^ 32
  | .S s => s.length < 2 ^ 32
  | .BOOL _ => true
  | .NULL => true
  | .L xs => xs.length < 2 ^ 32 && wfMembers xs
  | .M e => e.length < 2 ^ 32 && (e.map Prod.fst).Nodup && wfEntries e
  | .BS xs => decide (xs.length < 2 ^ 32) && xs.all (fun m => m.length < 2 ^ 32)
  | .NS xs =>
    decide (xs.length < 2 ^ 32) &&
      xs.all (fun m => (transformNumberValue m).length < 2 ^ 32)
  | .SS xs => decide (xs.length < 2 ^ 32) && xs.all (fun m => m.length < 2 ^ 32)

def wfMembers : List AttributeValue → Bool
  | [] => true
  | v :: vs => wfA v && wfMembers vs

def wfEntries : List (GoStr × AttributeValue) → Bool
  | [] => true
  | (k, v) :: rest => decide (k.length < 2 ^ 32) && wfA v && wfEntries rest

end

/-! numbersSafeA: every number string occurring in the value (number
attributes and number-set members) lies in the domain where the
float64 canonicalization model is exact and is already canonical. -/

mutual

def numbersSafeA : AttributeValue → Bool
  | .B _ => true
  | .N n => decide (NumberSafe n)
  | .S _ => true
  | .BOOL _ => true
  | .NULL => true
  | .L xs => numbersSafeMembers xs
  | .M e => numbersSafeEntries e
  | .BS _ => true
  | .NS xs => xs.all (fun m => decide (NumberSafe m))
  | .SS _ => true

def numbersSafeMembers : List AttributeValue → Bool
  | [] => true
  | v :: vs => numbersSafeA v && numbersSafeMembers vs

def numbersSafeEntries : List (GoStr × AttributeValue) → Bool
  | [] => true
  | (_, v) :: rest => numbersSafeA v && numbersSafeEntries rest

end

/-! ### Round-trip and determinism of the codec (claim C2)

The development below establishes, for well-formed values: the
deserializer applied to the serializer's output succeeds and returns the
order-normalized value with the serializer's number canonicalization
applied (deserialize_serializeAttribute); hence under NumberSafe numbers
the round trip is the identity up to order normalization; and the
serialized bytes depend only on the order-normalized value, which is the
byte-determinism statement (serializeAttribute_fullNorm). -/

theorem decodeLength_encodeLength (n : Nat) (r : GoStr) (h : n < 2 ^ 32) :
    decodeLength (encodeLength n ++ r) = some (n, r) := by
  simp only [encodeLength, List.cons_append, List.nil_append, decodeLength,
    Option.some.injEq, Prod.mk.injEq]
  exact ⟨by omega, trivial⟩

theorem decodeValue_encodeValue (v : GoStr) (r : GoStr) (h : v.length < 2 ^ 32) :
    decodeValue (encodeValue v ++ r) = some (v, r) := by
  simp only [encodeValue, List.append_assoc, decodeValue,
    decodeLength_encodeLength v.length (v ++ r) h]
  rw [if_neg]
  · rw [List.take_append_of_le_length (le_refl _), List.drop_append_of_le_length (le_refl _)]
    simp
  · simp only [List.length_append]
    omega

theorem decodeTag_cons (t : Nat) (r : GoStr) : decodeTag (0 :: t :: r) = some (t, r) := by
  simp [decodeTag, decodeByte]

theorem decodeSetMembers_encoded (ms : List GoStr) (r : GoStr)
    (h : ∀ m ∈ ms, m.length < 2 ^ 32) :
    decodeSetMembers ms.length ((ms.map encodeValue).flatten ++ r) = some (ms, r) := by
  induction ms with
  | nil => simp [decodeSetMembers]
  | cons m ms ih =>
    have hm : m.length < 2 ^ 32 := h m (List.mem_cons_self m ms)
    simp only [List.map_cons, List.flatten_cons, List.length_cons, List.append_assoc,
      decodeSetMembers, decodeValue_encodeValue m _ hm]
    rw [ih (fun x hx => h x (List.mem_cons_of_mem m hx))]

/-- Sorting keyed pairs commutes with mapping the values, because the order
inspects only the keys. -/
theorem orderedInsert_fst_map {A B : Type} (f : GoStr → A → B) (kv : GoStr × A)
    (l : List (GoStr × A)) :
    List.orderedInsert fstLE (kv.1, f kv.1 kv.2) (l.map (fun p => (p.1, f p.1 p.2))) =
      (List.orderedInsert fstLE kv l).map (fun p => (p.1, f p.1 p.2)) := by
  induction l with
  | nil => rfl
  | cons p l ih =>
    simp only [List.map_cons, List.orderedInsert, fstLE]
    by_cases h : BytesLE kv.1 p.1
    · rw [if_pos h, if_pos h]
      rfl
    · rw [if_neg h, if_neg h]
      simp only [List.map_cons, List.cons.injEq, true_and]
      simpa only [fstLE] using ih

theorem insertionSort_fst_map {A B : Type} (f : GoStr → A → B) (l : List (GoStr × A)) :
    List.insertionSort fstLE (l.map (fun p => (p.1, f p.1 p.2))) =
      (List.insertionSort fstLE l).map (fun p => (p.1, f p.1 p.2)) := by
  induction l with
  | nil => rfl
  | cons kv l ih =>
    simp only [List.map_cons, List.insertionSort, ih]
    exact orderedInsert_fst_map f kv _

theorem serializeKeyedEntries_eq_map (e : List (GoStr × AttributeValue)) :
    serializeKeyedEntries e =
      e.map (fun kv => (kv.1, serializeString kv.1 ++ serializeAttribute kv.2)) := by
  induction e with
  | nil => rfl
  | cons kv rest ih =>
    obtain ⟨k, v⟩ := kv
    simp only [serializeKeyedEntries, List.map_cons, ih]

/-- The literal shape of the Go map serializer: sort the entries by key
first, then serialize each sorted entry in order. -/
theorem serializeAttribute_M_sortFirst (e : List (GoStr × AttributeValue)) :
    serializeAttribute (.M e) =
      [0, tagMap] ++ encodeLength e.length ++
        ((sortedKeyMap e).map
          (fun kv => serializeString kv.1 ++ serializeAttribute kv.2)).flatten := by
  rw [serializeAttribute, serializeKeyedEntries_eq_map,
    insertionSort_fst_map (fun k v => serializeString k ++ serializeAttribute v) e]
  rw [sortedKeyMap, List.map_map]
  rfl

theorem serializeMembers_eq_flatten (xs : List AttributeValue) :
    serializeMembers xs = (xs.map serializeAttribute).flatten := by
  induction xs with
  | nil => rfl
  | cons v vs ih => simp only [serializeMembers, List.map_cons, List.flatten_cons, ih]

theorem normAttrMembers_eq_map (xs : List AttributeValue) :
    normAttrMembers xs = xs.map normAttr := by
  induction xs with
  | nil => rfl
  | cons v vs ih => simp only [normAttrMembers, List.map_cons, ih]

theorem normAttrEntries_eq_map (e : List (GoStr × AttributeValue)) :
    normAttrEntries e = e.map (fun kv => (kv.1, normAttr kv.2)) := by
  induction e with
  | nil => rfl
  | cons kv rest ih =>
    obtain ⟨k, v⟩ := kv
    simp only [normAttrEntries, List.map_cons, ih]

theorem fullNormMembers_eq_map (xs : List AttributeValue) :
    fullNormMembers xs = xs.map fullNorm := by
  induction xs with
  | nil => rfl
  | cons v vs ih => simp only [fullNormMembers, List.map_cons, ih]

theorem fullNormEntries_eq_map (e : List (GoStr × AttributeValue)) :
    fullNormEntries e = e.map (fun kv => (kv.1, fullNorm kv.2)) := by
  induction e with
  | nil => rfl
  | cons kv rest ih =>
    obtain ⟨k, v⟩ := kv
    simp only [fullNormEntries, List.map_cons, ih]

theorem wfMembers_mem {xs : List AttributeValue} {v : AttributeValue}
    (hwf : wfMembers xs = true) (hv : v ∈ xs) : wfA v = true := by
  induction xs with
  | nil => cases hv
  | cons w ws ih =>
    simp only [wfMembers, Bool.and_eq_true] at hwf
    rcases List.mem_cons.mp hv with h | h
    · exact h ▸ hwf.1
    · exact ih hwf.2 h

theorem wfEntries_mem {e : List (GoStr × AttributeValue)} {kv : GoStr × AttributeValue}
    (hwf : wfEntries e = true) (hkv : kv ∈ e) :
    kv.1.length < 2 ^ 32 ∧ wfA kv.2 = true := by
  induction e with
  | nil => cases hkv
  | cons p ps ih =>
    obtain ⟨k, v⟩ := p
    simp only [wfEntries, Bool.and_eq_true, decide_eq_true_eq] at hwf
    rcases List.mem_cons.mp hkv with h | h
    · subst h
      exact ⟨hwf.1.1, hwf.1.2⟩
    · exact ih hwf.2 h

theorem numbersSafeMembers_mem {xs : List AttributeValue} {v : AttributeValue}
    (hs : numbersSafeMembers xs = true) (hv : v ∈ xs) : numbersSafeA v = true := by
  induction xs with
  | nil => cases hv
  | cons w ws ih =>
    simp only [numbersSafeMembers, Bool.and_eq_true] at hs
    rcases List.mem_cons.mp hv with h | h
    · exact h ▸ hs.1
    · exact ih hs.2 h

theorem len_le_serializeMembers {v : AttributeValue} {xs : List AttributeValue} (h : v ∈ xs) :
    (serializeAttribute v).length ≤ (serializeMembers xs).length := by
  induction xs with
  | nil => cases h
  | cons w ws ih =>
    simp only [serializeMembers, List.length_append]
    rcases List.mem_cons.mp h with h1 | h1
    · subst h1; omega
    · have := ih h1; omega

theorem len_le_entriesFlatten {kv : GoStr × AttributeValue}
    {es : List (GoStr × AttributeValue)} (h : kv ∈ es) :
    (serializeAttribute kv.2).length ≤
      ((es.map (fun p => serializeString p.1 ++ serializeAttribute p.2)).flatten).length := by
  induction es with
  | nil => cases h
  | cons p ps ih =>
    simp only [List.map_cons, List.flatten_cons, List.length_append]
    rcases List.mem_cons.mp h with h1 | h1
    · subst h1; omega
    · have := ih h1; omega

theorem serializeAttribute_length_ge_two (v : AttributeValue) :
    2 ≤ (serializeAttribute v).length := by
  cases v <;>
    simp [serializeAttribute, serializeBinary, serializeNumber, serializeString,
      serializeBoolean, serializeNull, serializeSet, encodeValue, encodeLength]

theorem deserialize_serializeString (fuel : Nat) (k : GoStr) (rest : GoStr)
    (h : k.length < 2 ^ 32) :
    deserialize (fuel + 1) (serializeString k ++ rest) = some (.S k, rest) := by
  simp only [serializeString, List.cons_append, List.nil_append, List.append_assoc]
  simp only [deserialize, decodeTag_cons]
  simp [tagBinary, tagNumber, tagString, decodeValue_encodeValue k rest h]

theorem deserializeMembers_flatten (fuel : Nat) (xs : List AttributeValue)
    (hall : ∀ v ∈ xs, ∀ r, deserialize fuel (serializeAttribute v ++ r) = some (normAttr v, r)) :
    ∀ rest, deserializeMembers fuel xs.length (serializeMembers xs ++ rest) =
      some (xs.map normAttr, rest) := by
  induction xs with
  | nil => intro rest; simp [deserializeMembers, serializeMembers]
  | cons v vs ih =>
    intro rest
    simp only [serializeMembers, List.length_cons, List.append_assoc, List.map_cons]
    simp only [deserializeMembers]
    rw [hall v (List.mem_cons_self v vs) (serializeMembers vs ++ rest)]
    simp only [ih (fun w hw => hall w (List.mem_cons_of_mem v hw)) rest]

theorem deserializeEntries_flatten (fuel : Nat) (es : List (GoStr × AttributeValue))
    (hfuel : 1 ≤ fuel)
    (hkeys : ∀ kv ∈ es, kv.1.length < 2 ^ 32)
    (hall : ∀ kv ∈ es, ∀ r,
      deserialize fuel (serializeAttribute kv.2 ++ r) = some (normAttr kv.2, r)) :
    ∀ rest,
      deserializeEntries fuel es.length
          ((es.map (fun p => serializeString p.1 ++ serializeAttribute p.2)).flatten ++ rest) =
        some (es.map (fun p => (p.1, normAttr p.2)), rest) := by
  obtain ⟨f, rfl⟩ : ∃ f, fuel = f + 1 := ⟨fuel - 1, by omega⟩
  induction es with
  | nil => intro rest; simp [deserializeEntries]
  | cons p ps ih =>
    intro rest
    obtain ⟨k, v⟩ := p
    simp only [List.map_cons, List.flatten_cons, List.length_cons, List.append_assoc]
    simp only [deserializeEntries]
    rw [deserialize_serializeString f k _ (hkeys (k, v) (List.mem_cons_self _ _))]
    simp only []
    rw [hall (k, v) (List.mem_cons_self _ _) _]
    simp only [ih (fun kv hkv => hkeys kv (List.mem_cons_of_mem _ hkv))
      (fun kv hkv => hall kv (List.mem_cons_of_mem _ hkv)) rest]

/-- The core round-trip induction: on a well-formed value, with fuel beyond
the serialized length, deserializing the serialized bytes succeeds,
consumes them exactly, and yields the value with the serializer's number
canonicalization applied and sets and map entries in ascending order. -/
theorem deserialize_serialize_of_lt :
    ∀ (fuel : Nat) (v : AttributeValue) (rest : GoStr), wfA v = true →
      (serializeAttribute v).length < fuel →
      deserialize fuel (serializeAttribute v ++ rest) = some (normAttr v, rest) := by
  intro fuel
  induction fuel with
  | zero => intro v rest _ hlen; omega
  | succ fuel ih =>
    intro v rest hwf hlen
    cases v with
    | B b =>
      have hb : b.length < 2 ^ 32 := by simpa [wfA] using hwf
      simp only [serializeAttribute, serializeBinary, List.cons_append, List.nil_append,
        List.append_assoc]
      simp only [deserialize, decodeTag_cons]
      simp [tagBinary, decodeValue_encodeValue b rest hb, normAttr]
    | N n =>
      have hn : (transformNumberValue n).length < 2 ^ 32 := by simpa [wfA] using hwf
      simp only [serializeAttribute, serializeNumber, List.cons_append, List.nil_append,
        List.append_assoc]
      simp only [deserialize, decodeTag_cons]
      simp [tagBinary, tagNumber, decodeValue_encodeValue _ rest hn, normAttr]
    | S s =>
      have hs : s.length < 2 ^ 32 := by simpa [wfA] using hwf
      simp only [serializeAttribute, serializeString, List.cons_append, List.nil_append,
        List.append_assoc]
      simp only [deserialize, decodeTag_cons]
      simp [tagBinary, tagNumber, tagString, decodeValue_encodeValue s rest hs, normAttr]
    | BOOL b =>
      simp only [serializeAttribute, serializeBoolean, List.cons_append, List.nil_append]
      simp only [deserialize, decodeTag_cons]
      cases b <;>
        simp [tagBinary, tagNumber, tagString, tagBoolean, decodeByte, normAttr]
    | NULL =>
      simp only [serializeAttribute, serializeNull, List.cons_append, List.nil_append]
      simp only [deserialize, decodeTag_cons]
      simp [tagBinary, tagNumber, tagString, tagBoolean, tagNull, normAttr]
    | L xs =>
      have hwf2 : xs.length < 2 ^ 32 ∧ wfMembers xs = true := by
        simpa [wfA, Bool.and_eq_true] using hwf
      have hlen2 := hlen
      simp only [serializeAttribute, List.length_append, List.length_cons,
        List.length_nil, encodeLength, List.cons_append, List.nil_append] at hlen2
      simp only [serializeAttribute, List.cons_append, List.nil_append, List.append_assoc]
      simp only [deserialize, decodeTag_cons]
      simp only [tagBinary, tagNumber, tagString, tagBoolean, tagNull, tagList,
        reduceIte, Nat.reduceEqDiff]
      rw [decodeLength_encodeLength xs.length (serializeMembers xs ++ rest) hwf2.1]
      have hmem : ∀ w ∈ xs, ∀ r,
          deserialize fuel (serializeAttribute w ++ r) = some (normAttr w, r) := by
        intro w hw r
        apply ih w r (wfMembers_mem hwf2.2 hw)
        have h1 := len_le_serializeMembers hw
        omega
      simp only [deserializeMembers_flatten fuel xs hmem rest, normAttr,
        normAttrMembers_eq_map]
    | M e =>
      have hwf2 : e.length < 2 ^ 32 ∧ (e.map Prod.fst).Nodup ∧ wfEntries e = true := by
        simpa [wfA, Bool.and_eq_true, and_assoc] using hwf
      have hlen2 := hlen
      rw [serializeAttribute_M_sortFirst] at hlen2
      simp only [List.length_append, List.length_cons, List.length_nil, encodeLength,
        List.cons_append, List.nil_append] at hlen2
      rw [serializeAttribute_M_sortFirst]
      simp only [List.cons_append, List.nil_append, List.append_assoc]
      simp only [deserialize, decodeTag_cons]
      simp only [tagBinary, tagNumber, tagString, tagBoolean, tagNull, tagList, tagMap,
        reduceIte, Nat.reduceEqDiff]
      rw [decodeLength_encodeLength e.length _ hwf2.1]
      have hperm : List.Perm (sortedKeyMap e) e := List.perm_insertionSort fstLE e
      have hkeys : ∀ kv ∈ sortedKeyMap e, kv.1.length < 2 ^ 32 := by
        intro kv hkv
        exact (wfEntries_mem hwf2.2.2 (hperm.mem_iff.mp hkv)).1
      have hmem : ∀ kv ∈ sortedKeyMap e, ∀ r,
          deserialize fuel (serializeAttribute kv.2 ++ r) = some (normAttr kv.2, r) := by
        intro kv hkv r
        apply ih kv.2 r (wfEntries_mem hwf2.2.2 (hperm.mem_iff.mp hkv)).2
        have h1 := len_le_entriesFlatten hkv
        omega
      have hcount : e.length = (sortedKeyMap e).length := (hperm.length_eq).symm
      rw [hcount]
      simp only [deserializeEntries_flatten fuel (sortedKeyMap e) (by omega) hkeys hmem rest]
      simp only [normAttr, normAttrEntries_eq_map, Option.some.injEq, Prod.mk.injEq,
        AttributeValue.M.injEq]
      constructor
      · rw [insertionSort_fst_map (fun _ v => normAttr v) e]
        rfl
      · trivial
    | BS xs =>
      have hwf2 : xs.length < 2 ^ 32 ∧ ∀ m ∈ xs, m.length < 2 ^ 32 := by
        simpa [wfA, Bool.and_eq_true, List.all_eq_true] using hwf
      simp only [serializeAttribute, serializeSet, List.map_id, List.cons_append,
        List.nil_append, List.append_assoc]
      simp only [deserialize, decodeTag_cons]
      simp only [tagBinary, tagNumber, tagString, tagBoolean, tagNull, tagList, tagMap,
        tagBinarySet, reduceIte, Nat.reduceEqDiff]
      rw [decodeLength_encodeLength xs.length _ hwf2.1]
      have hperm : List.Perm (List.insertionSort BytesLE xs) xs := List.perm_insertionSort BytesLE xs
      have hms : ∀ m ∈ List.insertionSort BytesLE xs, m.length < 2 ^ 32 :=
        fun m hm => hwf2.2 m (hperm.mem_iff.mp hm)
      rw [show xs.length = (List.insertionSort BytesLE xs).length from hperm.length_eq.symm]
      simp only [decodeSetMembers_encoded _ rest hms]
      simp only [normAttr, Option.some.injEq, Prod.mk.injEq, AttributeValue.BS.injEq]
      exact ⟨(List.sorted_insertionSort BytesLE xs).insertionSort_eq, trivial⟩
    | NS xs =>
      have hwf2 : xs.length < 2 ^ 32 ∧ ∀ m ∈ xs, (transformNumberValue m).length < 2 ^ 32 := by
        simpa [wfA, Bool.and_eq_true, List.all_eq_true] using hwf
      simp only [serializeAttribute, serializeSet, List.cons_append,
        List.nil_append, List.append_assoc]
      simp only [deserialize, decodeTag_cons]
      simp only [tagBinary, tagNumber, tagString, tagBoolean, tagNull, tagList, tagMap,
        tagBinarySet, tagNumberSet, reduceIte, Nat.reduceEqDiff]
      rw [decodeLength_encodeLength xs.length _ hwf2.1]
      have hperm : List.Perm (List.insertionSort BytesLE (xs.map transformNumberValue))
          (xs.map transformNumberValue) := List.perm_insertionSort BytesLE _
      have hms : ∀ m ∈ List.insertionSort BytesLE (xs.map transformNumberValue),
          m.length < 2 ^ 32 := by
        intro m hm
        obtain ⟨x, hx, rfl⟩ := List.mem_map.mp (hperm.mem_iff.mp hm)
        exact hwf2.2 x hx
      rw [show xs.length = (List.insertionSort BytesLE (xs.map transformNumberValue)).length by
        rw [hperm.length_eq, List.length_map]]
      simp only [decodeSetMembers_encoded _ rest hms]
      simp only [normAttr, Option.some.injEq, Prod.mk.injEq, AttributeValue.NS.injEq]
      exact ⟨(List.sorted_insertionSort BytesLE _).insertionSort_eq, trivial⟩
    | SS xs =>
      have hwf2 : xs.length < 2 ^ 32 ∧ ∀ m ∈ xs, m.length < 2 ^ 32 := by
        simpa [wfA, Bool.and_eq_true, List.all_eq_true] using hwf
      simp only [serializeAttribute, serializeSet, List.map_id, List.cons_append,
        List.nil_append, List.append_assoc]
      simp only [deserialize, decodeTag_cons]
      simp only [tagBinary, tagNumber, tagString, tagBoolean, tagNull, tagList, tagMap,
        tagBinarySet, tagNumberSet, tagStringSet, reduceIte, Nat.reduceEqDiff]
      rw [decodeLength_encodeLength xs.length _ hwf2.1]
      have hperm : List.Perm (List.insertionSort BytesLE xs) xs := List.perm_insertionSort BytesLE xs
      have hms : ∀ m ∈ List.insertionSort BytesLE xs, m.length < 2 ^ 32 :=
        fun m hm => hwf2.2 m (hperm.mem_iff.mp hm)
      rw [show xs.length = (List.insertionSort BytesLE xs).length from hperm.length_eq.symm]
      simp only [decodeSetMembers_encoded _ rest hms]
      simp only [normAttr, Option.some.injEq, Prod.mk.injEq, AttributeValue.SS.injEq]
      exact ⟨(List.sorted_insertionSort BytesLE xs).insertionSort_eq, trivial⟩

/-- DeserializeAttribute inverts SerializeAttribute on well-formed values,
up to the serializer's number canonicalization and order normalization. -/
theorem deserializeAttribute_serializeAttribute (v : AttributeValue) (hwf : wfA v = true) :
    deserializeAttribute (serializeAttribute v) = some (normAttr v) := by
  have h2 := serializeAttribute_length_ge_two v
  have hne : (serializeAttribute v).isEmpty = false := by
    cases h : serializeAttribute v with
    | nil => rw [h] at h2; simp at h2
    | cons a l => simp
  rw [deserializeAttribute, if_neg (by simp [hne])]
  have := deserialize_serialize_of_lt ((serializeAttribute v).length + 1) v [] hwf (by omega)
  rw [List.append_nil] at this
  rw [this]

theorem map_transformNumberValue_eq_self {xs : List GoStr}
    (h : ∀ m ∈ xs, NumberSafe m) : xs.map transformNumberValue = xs := by
  induction xs with
  | nil => rfl
  | cons m ms ih =>
    simp only [List.map_cons, (h m (List.mem_cons_self m ms)).1,
      ih (fun x hx => h x (List.mem_cons_of_mem m hx))]

/-! normAttr agrees with fullNorm whenever every number in the value is
already canonical: the only difference between the two normalizations is
the number canonicalization. -/

mutual

theorem normAttr_eq_fullNorm : ∀ (v : AttributeValue), numbersSafeA v = true →
    normAttr v = fullNorm v
  | .B _, _ => rfl
  | .N n, h => by
    have hn : NumberSafe n := by simpa [numbersSafeA] using h
    simp only [normAttr, fullNorm, hn.1]
  | .S _, _ => rfl
  | .BOOL _, _ => rfl
  | .NULL, _ => rfl
  | .L xs, h => by
    have h2 : numbersSafeMembers xs = true := by simpa [numbersSafeA] using h
    simp only [normAttr, fullNorm, normAttrMembers_eq_fullNormMembers xs h2]
  | .M e, h => by
    have h2 : numbersSafeEntries e = true := by simpa [numbersSafeA] using h
    simp only [normAttr, fullNorm, normAttrEntries_eq_fullNormEntries e h2]
  | .BS _, _ => rfl
  | .NS xs, h => by
    have h2 : ∀ m ∈ xs, NumberSafe m := by
      simpa [numbersSafeA, List.all_eq_true, decide_eq_true_eq] using h
    simp only [normAttr, fullNorm, map_transformNumberValue_eq_self h2]
  | .SS _, _ => rfl

theorem normAttrMembers_eq_fullNormMembers : ∀ (xs : List AttributeValue),
    numbersSafeMembers xs = true → normAttrMembers xs = fullNormMembers xs
  | [], _ => rfl
  | v :: vs, h => by
    simp only [numbersSafeMembers, Bool.and_eq_true] at h
    simp only [normAttrMembers, fullNormMembers, normAttr_eq_fullNorm v h.1,
      normAttrMembers_eq_fullNormMembers vs h.2]

theorem normAttrEntries_eq_fullNormEntries : ∀ (e : List (GoStr × AttributeValue)),
    numbersSafeEntries e = true → normAttrEntries e = fullNormEntries e
  | [], _ => rfl
  | (k, v) :: rest, h => by
    simp only [numbersSafeEntries, Bool.and_eq_true] at h
    simp only [normAttrEntries, fullNormEntries, normAttr_eq_fullNorm v h.1,
      normAttrEntries_eq_fullNormEntries rest h.2]

end

/-- Two sorts of permutation-equal byte-string lists coincide. -/
theorem insertionSort_eq_of_perm {l1 l2 : List GoStr} (h : l1.Perm l2) :
    List.insertionSort BytesLE l1 = List.insertionSort BytesLE l2 :=
  List.eq_of_perm_of_sorted
    (((List.perm_insertionSort BytesLE l1).trans h).trans
      (List.perm_insertionSort BytesLE l2).symm)
    (List.sorted_insertionSort BytesLE l1) (List.sorted_insertionSort BytesLE l2)

theorem insertionSort_idem {A : Type} (l : List (GoStr × A)) :
    List.insertionSort fstLE (List.insertionSort fstLE l) = List.insertionSort fstLE l :=
  (List.sorted_insertionSort fstLE l).insertionSort_eq

theorem insertionSort_bytes_idem (l : List GoStr) :
    List.insertionSort BytesLE (List.insertionSort BytesLE l) = List.insertionSort BytesLE l :=
  (List.sorted_insertionSort BytesLE l).insertionSort_eq

/-! fullNorm is idempotent. -/

theorem insertionSort_map_fullNorm (l : List (GoStr × AttributeValue)) :
    List.insertionSort fstLE (l.map (fun p => (p.1, fullNorm p.2))) =
      (List.insertionSort fstLE l).map (fun p => (p.1, fullNorm p.2)) :=
  insertionSort_fst_map (fun _ v => fullNorm v) l

mutual

theorem fullNorm_idem : ∀ (v : AttributeValue), fullNorm (fullNorm v) = fullNorm v
  | .B _ => rfl
  | .N _ => rfl
  | .S _ => rfl
  | .BOOL _ => rfl
  | .NULL => rfl
  | .L xs => by
    simp only [fullNorm, fullNormMembers_fullNorm xs]
  | .M e => by
    simp only [fullNorm, AttributeValue.M.injEq]
    rw [fullNormEntries_eq_map (List.insertionSort fstLE (fullNormEntries e))]
    rw [insertionSort_map_fullNorm (List.insertionSort fstLE (fullNormEntries e))]
    rw [insertionSort_idem]
    rw [← insertionSort_map_fullNorm (fullNormEntries e)]
    rw [← fullNormEntries_eq_map (fullNormEntries e)]
    rw [fullNormEntries_fullNorm e]
  | .BS xs => by simp only [fullNorm, insertionSort_bytes_idem]
  | .NS xs => by simp only [fullNorm, insertionSort_bytes_idem]
  | .SS xs => by simp only [fullNorm, insertionSort_bytes_idem]

theorem fullNormMembers_fullNorm : ∀ (xs : List AttributeValue),
    fullNormMembers (fullNormMembers xs) = fullNormMembers xs
  | [] => rfl
  | v :: vs => by
    simp only [fullNormMembers, fullNorm_idem v, fullNormMembers_fullNorm vs]

theorem fullNormEntries_fullNorm : ∀ (e : List (GoStr × AttributeValue)),
    fullNormEntries (fullNormEntries e) = fullNormEntries e
  | [] => rfl
  | (k, v) :: rest => by
    simp only [fullNormEntries, fullNorm_idem v, fullNormEntries_fullNorm rest]

end

/-! ### Byte-determinism: the serialized bytes depend only on the
order-normalized value. -/

theorem fullNormEntries_length (e : List (GoStr × AttributeValue)) :
    (fullNormEntries e).length = e.length := by
  rw [fullNormEntries_eq_map, List.length_map]

theorem insertionSort_map_kblob (l : List (GoStr × AttributeValue)) :
    List.insertionSort fstLE
        (l.map (fun p => (p.1, serializeString p.1 ++ serializeAttribute p.2))) =
      (List.insertionSort fstLE l).map
        (fun p => (p.1, serializeString p.1 ++ serializeAttribute p.2)) :=
  insertionSort_fst_map (fun k v => serializeString k ++ serializeAttribute v) l

mutual

theorem serializeAttribute_fullNorm : ∀ (v : AttributeValue),
    serializeAttribute (fullNorm v) = serializeAttribute v
  | .B _ => rfl
  | .N _ => rfl
  | .S _ => rfl
  | .BOOL _ => rfl
  | .NULL => rfl
  | .L xs => by
    simp only [fullNorm, serializeAttribute]
    rw [serializeMembers_fullNorm xs, fullNormMembers_eq_map, List.length_map]
  | .M e => by
    simp only [fullNorm, serializeAttribute]
    rw [(List.perm_insertionSort fstLE (fullNormEntries e)).length_eq,
      fullNormEntries_length]
    rw [serializeKeyedEntries_eq_map (List.insertionSort fstLE (fullNormEntries e))]
    rw [← insertionSort_map_kblob (fullNormEntries e)]
    rw [insertionSort_idem]
    rw [← serializeKeyedEntries_eq_map (fullNormEntries e)]
    rw [serializeKeyedEntries_fullNorm e]
  | .BS xs => by
    simp only [fullNorm, serializeAttribute, serializeSet, List.map_id]
    rw [(List.perm_insertionSort BytesLE xs).length_eq, insertionSort_bytes_idem]
  | .NS xs => by
    simp only [fullNorm, serializeAttribute, serializeSet]
    rw [(List.perm_insertionSort BytesLE xs).length_eq]
    rw [insertionSort_eq_of_perm
      ((List.perm_insertionSort BytesLE xs).map transformNumberValue)]
  | .SS xs => by
    simp only [fullNorm, serializeAttribute, serializeSet, List.map_id]
    rw [(List.perm_insertionSort BytesLE xs).length_eq, insertionSort_bytes_idem]

theorem serializeMembers_fullNorm : ∀ (xs : List AttributeValue),
    serializeMembers (fullNormMembers xs) = serializeMembers xs
  | [] => rfl
  | v :: vs => by
    simp only [fullNormMembers, serializeMembers, serializeAttribute_fullNorm v,
      serializeMembers_fullNorm vs]

theorem serializeKeyedEntries_fullNorm : ∀ (e : List (GoStr × AttributeValue)),
    serializeKeyedEntries (fullNormEntries e) = serializeKeyedEntries e
  | [] => rfl
  | (k, v) :: rest => by
    simp only [fullNormEntries, serializeKeyedEntries, serializeAttribute_fullNorm v,
      serializeKeyedEntries_fullNorm rest]

end

/-- Byte-determinism: two values equal up to set and map order serialize to
identical byte strings. -/
theorem serializeAttribute_eq_of_fullNorm_eq {v w : AttributeValue}
    (h : fullNorm v = fullNorm w) : serializeAttribute v = serializeAttribute w := by
  rw [← serializeAttribute_fullNorm v, h, serializeAttribute_fullNorm w]

/-! ## encoding/base64 (StdEncoding)

Standard base64 with padding, used by encoding/json for byte slices and by
the provider for the material description entries. -/

/-- The value of one base64 alphabet character, none for a byte outside the
alphabet. -/
def base64DecodeChar (c : Nat) : Option Nat :=
  if 65 ≤ c ∧ c ≤ 90 then some (c - 65)
  else if 97 ≤ c ∧ c ≤ 122 then some (c - 71)
  else if 48 ≤ c ∧ c ≤ 57 then some (c + 4)
  else if c = 43 then some 62
  else if c = 47 then some 63
  else none

/-- The base64 alphabet character with the given 6-bit value. -/
def base64EncodeChar (n : Nat) : Nat :=
  if n < 26 then n + 65
  else if n < 52 then n + 71
  else if n < 62 then n - 4
  else if n = 62 then 43
  else 47

/-- base64.StdEncoding.EncodeToString. -/
def base64Encode : GoStr → GoStr
  | [] => []
  | [b0] =>
    [base64EncodeChar (b0 / 4), base64EncodeChar (b0 % 4 * 16), 61, 61]
  | [b0, b1] =>
    [base64EncodeChar (b0 / 4), base64EncodeChar (b0 % 4 * 16 + b1 / 16),
      base64EncodeChar (b1 % 16 * 4), 61]
  | b0 :: b1 :: b2 :: rest =>
    [base64EncodeChar (b0 / 4), base64EncodeChar (b0 % 4 * 16 + b1 / 16),
      base64EncodeChar (b1 % 16 * 4 + b2 / 64), base64EncodeChar (b2 % 64)] ++
      base64Encode rest

/-- base64.StdEncoding.DecodeString: four-character groups, padding allowed
only at the end. -/
def base64Decode : GoStr → Except String GoStr
  | [] => .ok []
  | c0 :: c1 :: c2 :: c3 :: rest =>
    match base64DecodeChar c0, base64DecodeChar c1 with
    | some v0, some v1 =>
      if c2 = 61 ∧ c3 = 61 ∧ rest = [] then .ok [v0 * 4 + v1 / 16]
      else if c3 = 61 ∧ rest = [] then
        match base64DecodeChar c2 with
        | some v2 => .ok [v0 * 4 + v1 / 16, v1 % 16 * 16 + v2 / 4]
        | none => .error "illegal base64 data"
      else
        match base64DecodeChar c2, base64DecodeChar c3 with
        | some v2, some v3 =>
          match base64Decode rest with
          | .ok tail => .ok ([v0 * 4 + v1 / 16, v1 % 16 * 16 + v2 / 4, v2 % 4 * 64 + v3] ++ tail)
          | .error m => .error m
        | _, _ => .error "illegal base64 data"
    | _, _ => .error "illegal base64 data"
  | _ => .error "illegal base64 data"

/-! ## pkg/utils: the JSON based attribute codec used by the client

utils.AttributeValueToBytes json.Marshals the aws-sdk AttributeValue
struct; utils.BytesToAttributeValue json.Unmarshals the bytes into a
map[string]interface{} and rebuilds an AttributeValue from that generic
value.  The embedding works at the level of the JSON document: encoding/json
prints a document to bytes injectively and parses those bytes back to the
same document, so the byte rendering is dropped and a document value stands
for its bytes.  Jval is exactly the range of json.Unmarshal into
interface{} as reachable in this pipeline: JSON strings, booleans, null,
arrays and objects (JSON numbers never occur, because every struct field
marshalled here is a string, bool, byte slice, list or map). -/

inductive Jval where
  | str (s : GoStr)
  | bool (b : Bool)
  | null
  | arr (xs : List Jval)
  | obj (fields : List (GoStr × Jval))

/-- The bytes of the JSON object key "Value", the single exported field of
every aws-sdk AttributeValue member struct. -/
def valueKey : GoStr := ascii "Value"

/-- Key order on JSON object fields (encoding/json emits map keys sorted;
struct fields in declaration order, which for one field is trivial). -/
def jfieldLE (p q : GoStr × Jval) : Prop := BytesLE p.1 q.1

instance : DecidableRel jfieldLE := fun p q => inferInstanceAs (Decidable (BytesLE p.1 q.1))

mutual

/-- The JSON document json.Marshal produces for an aws-sdk AttributeValue
member struct: an object with the single field Value holding the payload.
A byte slice renders as its base64 string; the NULL member renders its
boolean flag (true for every NULL value this system constructs); a map
renders as a nested object with keys sorted, a list as an array of
recursively marshalled members. -/
def attributeValueToJSON : AttributeValue → Jval
  | .B b => .obj [(valueKey, .str (base64Encode b))]
  | .N n => .obj [(valueKey, .str n)]
  | .S s => .obj [(valueKey, .str s)]
  | .BOOL b => .obj [(valueKey, .bool b)]
  | .NULL => .obj [(valueKey, .bool true)]
  | .L xs => .obj [(valueKey, .arr (attributeValueListToJSON xs))]
  | .M e => .obj [(valueKey, .obj (List.insertionSort jfieldLE (attributeValueMapToJSONFields e)))]
  | .BS xs => .obj [(valueKey, .arr (xs.map (fun b => .str (base64Encode b))))]
  | .NS xs => .obj [(valueKey, .arr (xs.map .str))]
  | .SS xs => .obj [(valueKey, .arr (xs.map .str))]

def attributeValueListToJSON : List AttributeValue → List Jval
  | [] => []
  | v :: vs => attributeValueToJSON v :: attributeValueListToJSON vs

def attributeValueMapToJSONFields : List (GoStr × AttributeValue) → List (GoStr × Jval)
  | [] => []
  | (k, v) :: rest => (k, attributeValueToJSON v) :: attributeValueMapToJSONFields rest

end

/-- utils.AttributeValueToBytes: json.Marshal of the AttributeValue struct,
at the document level.  Marshalling these structs never fails. -/
def AttributeValueToBytes (value : AttributeValue) : Jval :=
  attributeValueToJSON value

mutual

/-- utils.interfaceToAttributeValue: rebuild an AttributeValue from the
generic value json.Unmarshal produced.  A string becomes a string
attribute, a bool a boolean attribute, null a NULL attribute, an array a
list, an object a map.  The Go switch also has a byte-slice case, which
json.Unmarshal can never produce, and rejects anything else (in particular
the float64 of a JSON number) with an unsupported-type error. -/
def interfaceToAttributeValue : Jval → Except String AttributeValue
  | .str s => .ok (.S s)
  | .bool b => .ok (.BOOL b)
  | .null => .ok .NULL
  | .arr xs =>
    match interfaceListToAttributeValues xs with
    | .ok vs => .ok (.L vs)
    | .error m => .error m
  | .obj fields =>
    match interfaceFieldsToAttributeValues fields with
    | .ok e => .ok (.M e)
    | .error m => .error m

def interfaceListToAttributeValues : List Jval → Except String (List AttributeValue)
  | [] => .ok []
  | j :: js =>
    match interfaceToAttributeValue j with
    | .ok v =>
      match interfaceListToAttributeValues js with
      | .ok vs => .ok (v :: vs)
      | .error m => .error m
    | .error m => .error m

def interfaceFieldsToAttributeValues :
    List (GoStr × Jval) → Except String (List (GoStr × AttributeValue))
  | [] => .ok []
  | (k, j) :: rest =>
    match interfaceToAttributeValue j with
    | .ok v =>
      match interfaceFieldsToAttributeValues rest with
      | .ok e => .ok ((k, v) :: e)
      | .error m => .error m
    | .error m => .error m

end

/-- utils.BytesToAttributeValue: json.Unmarshal the data into a
map[string]interface{} (failing when the document is not a JSON object)
and rebuild an AttributeValue from that generic map with
interfaceToAttributeValue.  The rebuilt value is therefore always a map
attribute wrapping the Value field. -/
def BytesToAttributeValue (data : Jval) : Except String AttributeValue :=
  match data with
  | .obj fields => interfaceToAttributeValue (.obj fields)
  | _ => .error "failed to unmarshal JSON to AttributeValue"

/-! ## The idealized AEAD and the client pipeline (pkg/client)

The data keys and the AEAD are Tink AES-256-GCM keysets, external to the
repository.  They are modelled ideally: a data key is its identity (fresh
keyset generation draws the next identity from an entropy counter), and an
AEAD encryption records the key identity, a fresh nonce, the plaintext and
the associated data — the Tink wire format likewise carries the keyset
output prefix and the fresh random nonce, so distinct keys or distinct
nonces yield distinct ciphertext bytes, and decryption recovers the
plaintext exactly when the key and the associated data match. -/

/-- Go function results, distinguishing a returned error from a panic. -/
inductive Res (α : Type) where
  | ok (a : α)
  | err (msg : String)
  | panicked (msg : String)

def Res.bind {α β : Type} : Res α → (α → Res β) → Res β
  | .ok a, f => f a
  | .err m, _ => .err m
  | .panicked m, _ => .panicked m

instance : Monad Res where
  pure := Res.ok
  bind := Res.bind

/-- An idealized Tink AES-256-GCM data keyset: its identity. -/
structure DataKey where
  id : Nat
  deriving DecidableEq

/-- An idealized AEAD ciphertext: the bytes determine and are determined by
the encrypting keyset identity, the nonce, the plaintext and the associated
data. -/
structure Ciphertext where
  keyId : Nat
  nonce : Nat
  plaintext : Jval
  associatedData : GoStr

/-- TinkDelegatedKey.Encrypt via the AEAD primitive, with explicit fresh
nonce. -/
def aeadEncrypt (k : DataKey) (nonce : Nat) (p : Jval) (ad : GoStr) : Ciphertext :=
  ⟨k.id, nonce, p, ad⟩

/-- TinkDelegatedKey.Decrypt via the AEAD primitive: authentication succeeds
exactly when the ciphertext was produced under this key with this
associated data. -/
def aeadDecrypt (k : DataKey) (c : Ciphertext) (ad : GoStr) : Except String Jval :=
  if c.keyId = k.id ∧ c.associatedData = ad then .ok c.plaintext
  else .error "cipher: message authentication failed"

/-- utils.PrimaryKeyInfo: table name, partition key name, sort key name
(empty when the table has no sort key). -/
structure PrimaryKeyInfo where
  table : GoStr
  partitionKey : GoStr
  sortKey : GoStr

/-- A caller-side item: attribute name to attribute value, unique names. -/
abbrev Item := List (GoStr × AttributeValue)

/-- A stored attribute: either an ordinary attribute value or a binary
attribute holding AEAD ciphertext bytes. -/
inductive StoredAttr where
  | av (v : AttributeValue)
  | encB (c : Ciphertext)

/-- An item as stored in DynamoDB by this client. -/
abbrev StoredItem := List (GoStr × StoredAttr)

/-- Go map indexing item[k]: none models the nil interface for an absent
key. -/
def lookupAttr (item : Item) (k : GoStr) : Option AttributeValue :=
  (item.find? (fun p => p.1 == k)).map (fun p => p.2)

def lookupStored (item : StoredItem) (k : GoStr) : Option StoredAttr :=
  (item.find? (fun p => p.1 == k)).map (fun p => p.2)

/-- utils.HashString: the hex SHA-256 of the input.  SHA-256 is external;
the model is an injective tagging of the input, preserving exactly what the
claims use: the material name is a deterministic function of table and key
values, equal inputs give equal names. -/
def HashString (input : GoStr) : GoStr := ascii "sha256:" ++ input

/-- EncryptedClient.constructMaterialName on a caller item: type-asserts
the partition-key attribute (and a present sort-key attribute) to the
string member; a failed assertion — absent key (nil interface) or any
non-string member — is a Go panic. -/
def constructMaterialName (item : Item) (pkInfo : PrimaryKeyInfo) : Res GoStr :=
  match lookupAttr item pkInfo.partitionKey with
  | some (.S partitionKeyValue) =>
    match
      (if pkInfo.sortKey ≠ [] ∧ (lookupAttr item pkInfo.sortKey).isSome then
        match lookupAttr item pkInfo.sortKey with
        | some (.S s2) => Res.ok s2
        | _ => Res.panicked "interface conversion: value is not a string member"
      else Res.ok []) with
    | .ok sortKeyValue =>
      Res.ok (HashString (pkInfo.table ++ ascii "-" ++ partitionKeyValue ++
        (if sortKeyValue ≠ [] then ascii "-" ++ sortKeyValue else [])))
    | .err m => .err m
    | .panicked m => .panicked m
  | some _ => Res.panicked "interface conversion: value is not a string member"
  | none => Res.panicked "interface conversion: nil interface"

/-- The same constructMaterialName applied to an item read back from the
store (decryptItem and DeleteItem call it on stored items; the Go function
is one and the same, typed over the common AttributeValue interface).  A
binary attribute — including one holding ciphertext — fails the string
assertion and panics. -/
def constructMaterialNameStored (item : StoredItem) (pkInfo : PrimaryKeyInfo) : Res GoStr :=
  match lookupStored item pkInfo.partitionKey with
  | some (.av (.S partitionKeyValue)) =>
    match
      (if pkInfo.sortKey ≠ [] ∧ (lookupStored item pkInfo.sortKey).isSome then
        match lookupStored item pkInfo.sortKey with
        | some (.av (.S s2)) => Res.ok s2
        | _ => Res.panicked "interface conversion: value is not a string member"
      else Res.ok []) with
    | .ok sortKeyValue =>
      Res.ok (HashString (pkInfo.table ++ ascii "-" ++ partitionKeyValue ++
        (if sortKeyValue ≠ [] then ascii "-" ++ sortKeyValue else [])))
    | .err m => .err m
    | .panicked m => .panicked m
  | some _ => Res.panicked "interface conversion: value is not a string member"
  | none => Res.panicked "interface conversion: nil interface"

/-- The provider-facing state the client pipeline threads: the entropy
counters for fresh keyset identities and fresh AEAD nonces, and the
material store contents, newest record first per name
(AwsKmsCryptographicMaterialsProvider backed by the KeyMaterialStore). -/
structure ClientState where
  nextKeyId : Nat
  nextNonce : Nat
  materials : List (GoStr × DataKey)

/-- The attribute loop of encryptItem: primary-key attributes are copied
verbatim; every other attribute is JSON-marshalled and encrypted with the
item data key under its own name as associated data, each encryption
consuming a fresh nonce, and stored as a binary attribute. -/
def encryptAttrs (key : DataKey) (pkInfo : PrimaryKeyInfo) :
    Item → Nat → StoredItem × Nat
  | [], nonce => ([], nonce)
  | (k, v) :: rest, nonce =>
    if k = pkInfo.partitionKey ∨ k = pkInfo.sortKey then
      ((k, .av v) :: (encryptAttrs key pkInfo rest nonce).1,
        (encryptAttrs key pkInfo rest nonce).2)
    else
      ((k, .encB (aeadEncrypt key nonce (AttributeValueToBytes v) k)) ::
          (encryptAttrs key pkInfo rest (nonce + 1)).1,
        (encryptAttrs key pkInfo rest (nonce + 1)).2)

/-- EncryptedClient.encryptItem: construct the material name from the
primary key, obtain fresh encryption materials for it (a freshly generated
data keyset, stored under the material name as a new version), then
encrypt every non-primary-key attribute. -/
def encryptItem (s : ClientState) (pkInfo : PrimaryKeyInfo) (item : Item) :
    Res (StoredItem × ClientState) :=
  Res.bind (constructMaterialName item pkInfo) (fun materialName =>
    let key : DataKey := ⟨s.nextKeyId⟩
    let (encrypted, nonce2) := encryptAttrs key pkInfo item s.nextNonce
    Res.ok (encrypted,
      { nextKeyId := s.nextKeyId + 1
        nextNonce := nonce2
        materials := (materialName, key) :: s.materials }))

/-- The attribute loop of decryptItem: primary-key attributes are copied
verbatim; every other attribute must be binary — a non-binary stored value
is an error, a binary value that does not authenticate under the item key
and the attribute name is an error — and on success the plaintext bytes
are rebuilt into an attribute value. -/
def decryptAttrs (key : DataKey) (pkInfo : PrimaryKeyInfo) :
    StoredItem → Res StoredItem
  | [] => .ok []
  | (k, value) :: rest =>
    if k = pkInfo.partitionKey ∨ k = pkInfo.sortKey then
      Res.bind (decryptAttrs key pkInfo rest) (fun tail => .ok ((k, value) :: tail))
    else
      match value with
      | .encB c =>
        match aeadDecrypt key c k with
        | .error _ => .err "error decrypting attribute value"
        | .ok rawData =>
          match BytesToAttributeValue rawData with
          | .error _ => .err "error converting bytes to attribute value"
          | .ok decryptedValue =>
            Res.bind (decryptAttrs key pkInfo rest)
              (fun tail => .ok ((k, .av decryptedValue) :: tail))
      | .av (.B _) => .err "error decrypting attribute value"
      | .av _ => .err "expected binary data for encrypted attribute value"

/-- EncryptedClient.decryptItem: construct the material name from the
primary key, fetch the decryption materials for its latest version, then
decrypt every non-primary-key attribute. -/
def decryptItem (s : ClientState) (pkInfo : PrimaryKeyInfo) (item : StoredItem) :
    Res StoredItem :=
  Res.bind (constructMaterialNameStored item pkInfo) (fun materialName =>
    match s.materials.find? (fun p => p.1 == materialName) with
    | none => .err "failed to fetch decryption materials: material not found"
    | some p => decryptAttrs p.2 pkInfo item)

/-- The embedding of a caller item as the stored item it would be were it
stored without encryption (used to compare decrypted output with the
original). -/
def asStored (item : Item) : StoredItem :=
  item.map (fun p => (p.1, .av p.2))

/-! ## pkg/delegatedkeys and pkg/materials

The only DelegatedKey implementation in the repository is
TinkDelegatedKey, wrapping a Tink keyset handle.  The keysets generated in
the repository are AES-256-GCM data keysets (GenerateDataKey) and
ECDSA-P256 signing keysets (GenerateSigningKey); a delegated key is
modelled by which of these its keyset is. -/

inductive KeysetKind where
  | aes256Gcm
  | ecdsaP256
  deriving DecidableEq

structure TinkDelegatedKey where
  keyset : KeysetKind
  deriving DecidableEq

/-- TinkDelegatedKey.AllowedForRawMaterials returns true unconditionally,
whatever keyset the key wraps. -/
def TinkDelegatedKey.AllowedForRawMaterials (_dk : TinkDelegatedKey) : Bool := true

/-! pkg/materials/wrapped.go: the wrapped materials.  The Go methods return
a DelegatedKey (possibly the nil interface) or panic; a result is a Res of
an optional key, whose panicked constructor carries the Go panic
message. -/

structure EncryptionMaterials where
  materialDescription : List (GoStr × GoStr)
  encryptionKey : Option TinkDelegatedKey
  signingKey : Option TinkDelegatedKey

def NewEncryptionMaterials (description : List (GoStr × GoStr))
    (encryptionKey signingKey : Option TinkDelegatedKey) : EncryptionMaterials :=
  ⟨description, encryptionKey, signingKey⟩

def EncryptionMaterials.MaterialDescription (em : EncryptionMaterials) :
    List (GoStr × GoStr) := em.materialDescription

def EncryptionMaterials.EncryptionKey (em : EncryptionMaterials) :
    Res (Option TinkDelegatedKey) := .ok em.encryptionKey

/-- EncryptionMaterials.DecryptionKey panics: encryption materials do not
provide decryption keys. -/
def EncryptionMaterials.DecryptionKey (_em : EncryptionMaterials) :
    Res (Option TinkDelegatedKey) :=
  .panicked "Encryption materials do not provide decryption keys."

def EncryptionMaterials.SigningKey (em : EncryptionMaterials) :
    Res (Option TinkDelegatedKey) := .ok em.signingKey

structure DecryptionMaterials where
  materialDescription : List (GoStr × GoStr)
  decryptionKey : Option TinkDelegatedKey

def NewDecryptionMaterials (description : List (GoStr × GoStr))
    (decryptionKey : Option TinkDelegatedKey) : DecryptionMaterials :=
  ⟨description, decryptionKey⟩

def DecryptionMaterials.MaterialDescription (dm : DecryptionMaterials) :
    List (GoStr × GoStr) := dm.materialDescription

/-- DecryptionMaterials.EncryptionKey panics: decryption materials do not
provide encryption keys. -/
def DecryptionMaterials.EncryptionKey (_dm : DecryptionMaterials) :
    Res (Option TinkDelegatedKey) :=
  .panicked "Decryption materials do not provide encryption keys."

def DecryptionMaterials.DecryptionKey (dm : DecryptionMaterials) :
    Res (Option TinkDelegatedKey) := .ok dm.decryptionKey

/-- DecryptionMaterials.SigningKey panics: decryption materials do not
provide signing keys. -/
def DecryptionMaterials.SigningKey (_dm : DecryptionMaterials) :
    Res (Option TinkDelegatedKey) :=
  .panicked "Decryption materials do not provide signing keys."

/-! pkg/materials/raw.go: the raw materials constructors. -/

structure RawEncryptionMaterials where
  signingKey : Option TinkDelegatedKey
  encryptionKey : Option TinkDelegatedKey
  materialDescription : List (GoStr × GoStr)

/-- NewRawEncryptionMaterials: refuse a non-nil encryption key whose
AllowedForRawMaterials is false. -/
def NewRawEncryptionMaterials (signingKey encryptionKey : Option TinkDelegatedKey)
    (materialDescription : List (GoStr × GoStr)) : Except String RawEncryptionMaterials :=
  match encryptionKey with
  | some k =>
    if !k.AllowedForRawMaterials then
      .error "encryption key type does not allow use with RawEncryptionMaterials"
    else .ok ⟨signingKey, encryptionKey, materialDescription⟩
  | none => .ok ⟨signingKey, encryptionKey, materialDescription⟩

structure RawDecryptionMaterials where
  verificationKey : Option TinkDelegatedKey
  decryptionKey : Option TinkDelegatedKey
  materialDescription : List (GoStr × GoStr)

/-- NewRawDecryptionMaterials: refuse a non-nil decryption key whose
AllowedForRawMaterials is false. -/
def NewRawDecryptionMaterials (verificationKey decryptionKey : Option TinkDelegatedKey)
    (materialDescription : List (GoStr × GoStr)) : Except String RawDecryptionMaterials :=
  match decryptionKey with
  | some k =>
    if !k.AllowedForRawMaterials then
      .error "decryption key type does not allow use with RawDecryptionMaterials"
    else .ok ⟨verificationKey, decryptionKey, materialDescription⟩
  | none => .ok ⟨verificationKey, decryptionKey, materialDescription⟩

/-! ## pkg/provider (aws.go): DecryptionMaterials retrieval -/

/-- Go map indexing with the string zero value for a missing key, as in
materialDescMap of aws.go. -/
def lookupDesc (desc : List (GoStr × GoStr)) (k : GoStr) : GoStr :=
  ((desc.find? (fun p => p.1 == k)).map (fun p => p.2)).getD []

/-- AwsKmsCryptographicMaterialsProvider.DecryptionMaterials: retrieve the
material record, base64-decode the wrapped keyset, the public key and the
signature, verify the signature over the raw wrapped-keyset bytes with the
stored public key, and only then unwrap the keyset and return materials.
The store retrieval, the Tink signature verification and the KEK unwrap
are the call's effects; they enter as the values they produce. -/
def awsDecryptionMaterials
    (retrieve : Except String (List (GoStr × GoStr) × GoStr))
    (verify : GoStr → GoStr → GoStr → Except String Bool)
    (unwrap : GoStr → Except String TinkDelegatedKey) :
    Except String DecryptionMaterials :=
  match retrieve with
  | .error e => .error e
  | .ok (materialDescMap, wrappedKeysetBase64) =>
    match base64Decode wrappedKeysetBase64 with
    | .error _ => .error "failed to decode encrypted keyset"
    | .ok encryptedKeyset =>
      match base64Decode (lookupDesc materialDescMap (ascii "PublicKey")) with
      | .error _ => .error "failed to decode public key"
      | .ok publicKeyBytes =>
        match base64Decode (lookupDesc materialDescMap (ascii "Signature")) with
        | .error _ => .error "failed to decode signature"
        | .ok signatureBytes =>
          match verify publicKeyBytes signatureBytes encryptedKeyset with
          | .error _ => .error "failed to verify the wrapped keyset signature"
          | .ok false => .error "failed to verify the wrapped keyset signature"
          | .ok true =>
            match unwrap encryptedKeyset with
            | .error _ => .error "failed to decrypt and unwrap data key"
            | .ok delegatedKey =>
              .ok (NewDecryptionMaterials materialDescMap (some delegatedKey))

/-! ## pkg/provider/store (KeyMaterialStore) -/

/-- A row of the key material table, keyed by (MaterialName, Version). -/
structure MetaItem where
  materialName : GoStr
  version : Nat
  materialDescription : GoStr
  deriving DecidableEq

/-- The key material table contents. -/
abbrev MetaTable := List MetaItem

/-- Key uniqueness, the DynamoDB invariant of the table. -/
def WFMeta (tbl : MetaTable) : Prop :=
  (tbl.map (fun it => (it.materialName, it.version))).Nodup

/-- The versions stored under a material name. -/
def versionsOf (tbl : MetaTable) (name : GoStr) : List Nat :=
  (tbl.filter (fun it => it.materialName == name)).map (fun it => it.version)

/-- KeyMaterialStore.getLastVersion: the descending query with limit one
returns the greatest version stored under the name, or zero when none
exists. -/
def getLastVersion (tbl : MetaTable) (name : GoStr) : Nat :=
  (versionsOf tbl name).foldr max 0

/-- The TransactWriteItems conditional put of StoreNewMaterial: the
condition attribute-not-exists(Version) or Version less than the new
version is evaluated against the existing row with the same
(MaterialName, Version) key of the table as it stands when the transaction
runs (which a concurrent writer may have changed since the version was
computed); a successful put replaces that row, a failed condition is a
transaction error. -/
def conditionalPutMaterial (tbl : MetaTable) (materialName : GoStr)
    (materialDescription : GoStr) (newVersion : Nat) : Except String MetaTable :=
  let keyMatch := fun it : MetaItem =>
    it.materialName == materialName && it.version == newVersion
  let conditionHolds :=
    match tbl.find? keyMatch with
    | none => true
    | some existing => existing.version < newVersion
  if conditionHolds then
    .ok (⟨materialName, newVersion, materialDescription⟩ ::
      tbl.filter (fun it => !keyMatch it))
  else .error "transaction failed: conditional check failed"

/-- KeyMaterialStore.StoreNewMaterial: fetch the last version, compute the
next one (one when none exists), and run the conditional put. -/
def StoreNewMaterial (tbl : MetaTable) (materialName : GoStr)
    (materialDescription : GoStr) : Except String MetaTable :=
  let currentVersion := getLastVersion tbl materialName
  let newVersion := if currentVersion ≠ 0 then currentVersion + 1 else 1
  conditionalPutMaterial tbl materialName materialDescription newVersion

/-- KeyMaterialStore.RetrieveMaterial: resolve version zero (or below) to
the latest version, then read the row with the (MaterialName, Version) key;
a missing row is the material-not-found error.  The material description
JSON and the WrappedKeyset extraction are irrelevant to the claims and the
row is returned whole. -/
def RetrieveMaterial (tbl : MetaTable) (materialName : GoStr) (version : Int) :
    Except String MetaItem :=
  let v : Nat := if version < 1 then getLastVersion tbl materialName else version.toNat
  match tbl.find? (fun it => it.materialName == materialName && it.version == v) with
  | none => .error "material not found"
  | some it => .ok it

/-! ## Claim theorems -/

/-- C4 counterexample: the claim states that decryption_key() on
EncryptionMaterials fails by returning an error and never panics; on a
concrete materials value built by NewEncryptionMaterials the call panics
(the Go method's signature returns only a DelegatedKey, so an error return
is not even possible). -/
theorem C4_counterexample :
    (NewEncryptionMaterials [] (some ⟨KeysetKind.aes256Gcm⟩) none).DecryptionKey =
      Res.panicked "Encryption materials do not provide decryption keys." := rfl

/-- C4 amended: decryption_key() on every EncryptionMaterials value and
encryption_key() on every DecryptionMaterials value refuse the capability
by panicking (with the messages below), not by returning an error. -/
theorem C4_capability_refusal_panics :
    ∀ (d : List (GoStr × GoStr)) (k s dk : Option TinkDelegatedKey),
      (NewEncryptionMaterials d k s).DecryptionKey =
        Res.panicked "Encryption materials do not provide decryption keys." ∧
      (NewDecryptionMaterials d dk).EncryptionKey =
        Res.panicked "Decryption materials do not provide encryption keys." :=
  fun _ _ _ _ => ⟨rfl, rfl⟩

/-- C8 counterexample: the claim states that the raw-materials
constructors refuse signing keys; for the Tink delegated key built from an
ECDSA-P256 signing keyset, NewRawEncryptionMaterials succeeds instead of
returning an error (TinkDelegatedKey.AllowedForRawMaterials is
unconditionally true). -/
theorem C8_counterexample :
    NewRawEncryptionMaterials none (some ⟨KeysetKind.ecdsaP256⟩) [] =
      .ok ⟨none, some ⟨KeysetKind.ecdsaP256⟩, []⟩ := rfl

/-- C8 amended: the raw-materials constructors check
AllowedForRawMaterials() and would return an error only for a key whose
check is false; TinkDelegatedKey.AllowedForRawMaterials returns true
unconditionally, so every Tink delegated key — including one built from a
signing keyset — is accepted by both constructors. -/
theorem C8_raw_materials_accept_all_tink_keys :
    ∀ (sk : Option TinkDelegatedKey) (ks : KeysetKind) (d : List (GoStr × GoStr)),
      NewRawEncryptionMaterials sk (some ⟨ks⟩) d = .ok ⟨sk, some ⟨ks⟩, d⟩ ∧
      NewRawDecryptionMaterials sk (some ⟨ks⟩) d = .ok ⟨sk, some ⟨ks⟩, d⟩ :=
  fun _ _ _ => ⟨rfl, rfl⟩

/-- C10: the client's constructMaterialName type-asserts the partition-key
value to the string member; for every item whose partition-key attribute is
absent (a nil interface) or non-string, the assertion fails and the call
panics rather than returning an error, and the panic propagates through
encryptItem (hence PutItem and BatchWriteItem put requests) and through
decryptItem (hence GetItem, Query, Scan and BatchGetItem decryption), which
both call it before anything else.  The error-returning string projection
utils.ConstructMaterialName is not on this path. -/
theorem C10_constructMaterialName_panics_on_bad_partition_key :
    ∀ (item : Item) (stored : StoredItem) (pkInfo : PrimaryKeyInfo) (st : ClientState),
      (lookupAttr item pkInfo.partitionKey = none ∨
        (∃ v, lookupAttr item pkInfo.partitionKey = some v ∧ ∀ s, v ≠ .S s)) →
      (lookupStored stored pkInfo.partitionKey = none ∨
        (∃ w, lookupStored stored pkInfo.partitionKey = some w ∧
          ∀ s, w ≠ .av (.S s))) →
      (∃ msg, constructMaterialName item pkInfo = .panicked msg) ∧
      (∃ msg, encryptItem st pkInfo item = .panicked msg) ∧
      (∃ msg, constructMaterialNameStored stored pkInfo = .panicked msg) ∧
      (∃ msg, decryptItem st pkInfo stored = .panicked msg) := by
  intro item stored pkInfo st hitem hstored
  have h1 : ∃ msg, constructMaterialName item pkInfo = .panicked msg := by
    rcases hitem with h | ⟨v, hv, hvs⟩
    · exact ⟨"interface conversion: nil interface", by simp only [constructMaterialName, h]⟩
    · cases v with
      | S s => exact absurd rfl (hvs s)
      | B b => exact ⟨"interface conversion: value is not a string member", by simp only [constructMaterialName, hv]⟩
      | N n => exact ⟨"interface conversion: value is not a string member", by simp only [constructMaterialName, hv]⟩
      | BOOL b => exact ⟨"interface conversion: value is not a string member", by simp only [constructMaterialName, hv]⟩
      | NULL => exact ⟨"interface conversion: value is not a string member", by simp only [constructMaterialName, hv]⟩
      | L xs => exact ⟨"interface conversion: value is not a string member", by simp only [constructMaterialName, hv]⟩
      | M e => exact ⟨"interface conversion: value is not a string member", by simp only [constructMaterialName, hv]⟩
      | BS xs => exact ⟨"interface conversion: value is not a string member", by simp only [constructMaterialName, hv]⟩
      | NS xs => exact ⟨"interface conversion: value is not a string member", by simp only [constructMaterialName, hv]⟩
      | SS xs => exact ⟨"interface conversion: value is not a string member", by simp only [constructMaterialName, hv]⟩
  have h2 : ∃ msg, constructMaterialNameStored stored pkInfo = .panicked msg := by
    rcases hstored with h | ⟨w, hw, hws⟩
    · exact ⟨"interface conversion: nil interface", by simp only [constructMaterialNameStored, h]⟩
    · cases w with
      | encB c => exact ⟨"interface conversion: value is not a string member", by simp only [constructMaterialNameStored, hw]⟩
      | av v =>
        cases v with
        | S s => exact absurd rfl (hws s)
        | B b => exact ⟨"interface conversion: value is not a string member", by simp only [constructMaterialNameStored, hw]⟩
        | N n => exact ⟨"interface conversion: value is not a string member", by simp only [constructMaterialNameStored, hw]⟩
        | BOOL b => exact ⟨"interface conversion: value is not a string member", by simp only [constructMaterialNameStored, hw]⟩
        | NULL => exact ⟨"interface conversion: value is not a string member", by simp only [constructMaterialNameStored, hw]⟩
        | L xs => exact ⟨"interface conversion: value is not a string member", by simp only [constructMaterialNameStored, hw]⟩
        | M e => exact ⟨"interface conversion: value is not a string member", by simp only [constructMaterialNameStored, hw]⟩
        | BS xs => exact ⟨"interface conversion: value is not a string member", by simp only [constructMaterialNameStored, hw]⟩
        | NS xs => exact ⟨"interface conversion: value is not a string member", by simp only [constructMaterialNameStored, hw]⟩
        | SS xs => exact ⟨"interface conversion: value is not a string member", by simp only [constructMaterialNameStored, hw]⟩
  obtain ⟨m1, hm1⟩ := h1
  obtain ⟨m2, hm2⟩ := h2
  refine ⟨⟨m1, hm1⟩, ⟨m1, ?_⟩, ⟨m2, hm2⟩, ⟨m2, ?_⟩⟩
  · simp only [encryptItem, hm1, Res.bind]
  · simp only [decryptItem, hm2, Res.bind]

/-- C10 witness: a concrete item whose partition key is a number attribute
and a concrete stored item lacking the partition key; the client panics on
both sides. -/
theorem C10_witness :
    (∃ msg, constructMaterialName [(ascii "PK", .N (ascii "7"))]
      ⟨ascii "T", ascii "PK", []⟩ = .panicked msg) ∧
    (∃ msg, encryptItem ⟨0, 0, []⟩ ⟨ascii "T", ascii "PK", []⟩
      [(ascii "PK", .N (ascii "7"))] = .panicked msg) ∧
    (∃ msg, constructMaterialNameStored [(ascii "Other", .av (.S (ascii "x")))]
      ⟨ascii "T", ascii "PK", []⟩ = .panicked msg) ∧
    (∃ msg, decryptItem ⟨0, 0, []⟩ ⟨ascii "T", ascii "PK", []⟩
      [(ascii "Other", .av (.S (ascii "x")))] = .panicked msg) := by
  have h := C10_constructMaterialName_panics_on_bad_partition_key
    [(ascii "PK", .N (ascii "7"))] [(ascii "Other", .av (.S (ascii "x")))]
    ⟨ascii "T", ascii "PK", []⟩ ⟨0, 0, []⟩
    (Or.inr ⟨.N (ascii "7"), by simp [lookupAttr, ascii], by intro s h; cases h⟩)
    (Or.inl (by simp [lookupStored, ascii]))
  exact h

/-- The decrypt attribute loop succeeds only when every non-primary-key
attribute is a binary ciphertext attribute. -/
theorem decryptAttrs_ok_all_encB {key : DataKey} {pkInfo : PrimaryKeyInfo} :
    ∀ {stored out : StoredItem}, decryptAttrs key pkInfo stored = .ok out →
      ∀ k a, (k, a) ∈ stored → k ≠ pkInfo.partitionKey → k ≠ pkInfo.sortKey →
        ∃ c, a = .encB c := by
  intro stored
  induction stored with
  | nil => intro out _ k a ha; cases ha
  | cons p rest ih =>
    intro out hok k a ha hpk hsk
    obtain ⟨k0, a0⟩ := p
    rcases List.mem_cons.mp ha with h | h
    · have hk : k = k0 := congrArg Prod.fst h
      have hA : a = a0 := congrArg Prod.snd h
      subst hk
      subst hA
      have hcond : ¬(k = pkInfo.partitionKey ∨ k = pkInfo.sortKey) := by tauto
      simp only [decryptAttrs] at hok
      rw [if_neg hcond] at hok
      split at hok
      · exact ⟨_, rfl⟩
      · cases hok
      · cases hok
    · simp only [decryptAttrs] at hok
      by_cases hb : k0 = pkInfo.partitionKey ∨ k0 = pkInfo.sortKey
      · rw [if_pos hb] at hok
        cases hrec : decryptAttrs key pkInfo rest with
        | ok tail => exact ih hrec k a h hpk hsk
        | err m => rw [hrec] at hok; simp [Res.bind] at hok
        | panicked m => rw [hrec] at hok; simp [Res.bind] at hok
      · rw [if_neg hb] at hok
        split at hok
        · split at hok
          · cases hok
          · split at hok
            · cases hok
            · cases hrec : decryptAttrs key pkInfo rest with
              | ok tail => exact ih hrec k a h hpk hsk
              | err m => rw [hrec] at hok; simp [Res.bind] at hok
              | panicked m => rw [hrec] at hok; simp [Res.bind] at hok
        · cases hok
        · cases hok

/-- C7 counterexample: the claim states that a non-binary stored attribute
is passed through; on a concrete stored item whose Age attribute is a
number, with the item's material present in the store, decryptItem returns
the expected-binary-data error instead of passing the attribute through. -/
theorem C7_counterexample :
    decryptItem
        ⟨1, 0, [(HashString (ascii "T" ++ ascii "-" ++ ascii "u1"), ⟨0⟩)]⟩
        ⟨ascii "T", ascii "PK", []⟩
        [(ascii "PK", .av (.S (ascii "u1"))), (ascii "Age", .av (.N (ascii "30")))] =
      Res.err "expected binary data for encrypted attribute value" := by
  simp [decryptItem, constructMaterialNameStored, lookupStored, HashString, ascii,
    Res.bind, decryptAttrs]

/-- C7 amended: on decrypt, non-binary attributes are not passed through:
decryptItem never succeeds on a stored item that has a non-primary-key
attribute whose value is not of binary type (when the loop reaches such an
attribute it returns the expected-binary-data error, as the counterexample
shows on a concrete item). -/
theorem C7_decryptItem_rejects_nonbinary :
    ∀ (st : ClientState) (pkInfo : PrimaryKeyInfo) (stored out : StoredItem)
      (k : GoStr) (v : AttributeValue),
      (k, .av v) ∈ stored → k ≠ pkInfo.partitionKey → k ≠ pkInfo.sortKey →
      (∀ b, v ≠ .B b) →
      decryptItem st pkInfo stored ≠ .ok out := by
  intro st pkInfo stored out k v hmem hpk hsk hnb hok
  simp only [decryptItem] at hok
  match hn : constructMaterialNameStored stored pkInfo with
  | .err m => rw [hn] at hok; cases hok
  | .panicked m => rw [hn] at hok; cases hok
  | .ok materialName =>
    rw [hn] at hok
    simp only [Res.bind] at hok
    match hf : st.materials.find? (fun p => p.1 == materialName) with
    | none => rw [hf] at hok; cases hok
    | some p =>
      rw [hf] at hok
      obtain ⟨c, hc⟩ := decryptAttrs_ok_all_encB hok k (.av v) hmem hpk hsk
      cases hc

/-- C7 witness for the amended theorem at the counterexample's input. -/
theorem C7_witness :
    decryptItem ⟨1, 0, [(HashString (ascii "T" ++ ascii "-" ++ ascii "u1"), ⟨0⟩)]⟩
        ⟨ascii "T", ascii "PK", []⟩
        [(ascii "PK", .av (.S (ascii "u1"))), (ascii "Age", .av (.N (ascii "30")))] ≠
      .ok [] :=
  C7_decryptItem_rejects_nonbinary _ _ _ [] (ascii "Age") (.N (ascii "30"))
    (by simp) (by decide) (by decide) (fun b h => by cases h)

/-- The encrypt attribute loop preserves every attribute name, in order. -/
theorem encryptAttrs_keys (key : DataKey) (pkInfo : PrimaryKeyInfo) :
    ∀ (item : Item) (nonce : Nat),
      ((encryptAttrs key pkInfo item nonce).1).map Prod.fst = item.map Prod.fst := by
  intro item
  induction item with
  | nil => intro nonce; rfl
  | cons p rest ih =>
    intro nonce
    obtain ⟨k, v⟩ := p
    simp only [encryptAttrs]
    by_cases hb : k = pkInfo.partitionKey ∨ k = pkInfo.sortKey
    · rw [if_pos hb]
      simp only [List.map_cons, ih nonce]
    · rw [if_neg hb]
      simp only [List.map_cons, ih (nonce + 1)]

/-- The encrypt attribute loop copies the primary-key attributes verbatim:
looking up the partition-key or sort-key name in the output gives exactly
the input attribute value. -/
theorem encryptAttrs_pk_lookup (key : DataKey) (pkInfo : PrimaryKeyInfo) :
    ∀ (item : Item) (nonce : Nat) (k0 : GoStr),
      (k0 = pkInfo.partitionKey ∨ k0 = pkInfo.sortKey) →
      lookupStored ((encryptAttrs key pkInfo item nonce).1) k0 =
        (lookupAttr item k0).map .av := by
  intro item
  induction item with
  | nil => intro nonce k0 _; rfl
  | cons p rest ih =>
    intro nonce k0 hk0
    obtain ⟨k, v⟩ := p
    simp only [encryptAttrs]
    by_cases hb : k = pkInfo.partitionKey ∨ k = pkInfo.sortKey
    · rw [if_pos hb]
      by_cases hkk : k = k0
      · subst hkk
        simp [lookupStored, lookupAttr, List.find?]
      · simp only [lookupStored, lookupAttr, List.find?_cons,
          show ((k, StoredAttr.av v).1 == k0) = false by simpa using hkk,
          show ((k, v).1 == k0) = false by simpa using hkk]
        exact ih nonce k0 hk0
    · rw [if_neg hb]
      have hkk : k ≠ k0 := by
        intro h
        subst h
        exact hb hk0
      simp only [lookupStored, lookupAttr, List.find?_cons,
        show ((k, StoredAttr.encB (aeadEncrypt key nonce (AttributeValueToBytes v) k)).1
          == k0) = false by simpa using hkk,
        show ((k, v).1 == k0) = false by simpa using hkk]
      exact ih (nonce + 1) k0 hk0

/-- The decrypt attribute loop preserves every attribute name, in order. -/
theorem decryptAttrs_keys {key : DataKey} {pkInfo : PrimaryKeyInfo} :
    ∀ {stored out : StoredItem}, decryptAttrs key pkInfo stored = .ok out →
      out.map Prod.fst = stored.map Prod.fst := by
  intro stored
  induction stored with
  | nil =>
    intro out hok
    cases hok
    rfl
  | cons p rest ih =>
    intro out hok
    obtain ⟨k0, a0⟩ := p
    simp only [decryptAttrs] at hok
    by_cases hb : k0 = pkInfo.partitionKey ∨ k0 = pkInfo.sortKey
    · rw [if_pos hb] at hok
      cases hrec : decryptAttrs key pkInfo rest with
      | ok tail =>
        rw [hrec] at hok
        simp only [Res.bind] at hok
        cases hok
        simp only [List.map_cons, ih hrec]
      | err m => rw [hrec] at hok; simp [Res.bind] at hok
      | panicked m => rw [hrec] at hok; simp [Res.bind] at hok
    · rw [if_neg hb] at hok
      split at hok
      · split at hok
        · cases hok
        · split at hok
          · cases hok
          · cases hrec : decryptAttrs key pkInfo rest with
            | ok tail =>
              rw [hrec] at hok
              simp only [Res.bind] at hok
              cases hok
              simp only [List.map_cons, ih hrec]
            | err m => rw [hrec] at hok; simp [Res.bind] at hok
            | panicked m => rw [hrec] at hok; simp [Res.bind] at hok
      · cases hok
      · cases hok

/-- The decrypt attribute loop copies the primary-key attributes verbatim. -/
theorem decryptAttrs_pk_lookup {key : DataKey} {pkInfo : PrimaryKeyInfo} :
    ∀ {stored out : StoredItem}, decryptAttrs key pkInfo stored = .ok out →
      ∀ k0, (k0 = pkInfo.partitionKey ∨ k0 = pkInfo.sortKey) →
        lookupStored out k0 = lookupStored stored k0 := by
  intro stored
  induction stored with
  | nil =>
    intro out hok k0 _
    cases hok
    rfl
  | cons p rest ih =>
    intro out hok k0 hk0
    obtain ⟨k, a0⟩ := p
    simp only [decryptAttrs] at hok
    by_cases hb : k = pkInfo.partitionKey ∨ k = pkInfo.sortKey
    · rw [if_pos hb] at hok
      cases hrec : decryptAttrs key pkInfo rest with
      | ok tail =>
        rw [hrec] at hok
        simp only [Res.bind] at hok
        cases hok
        by_cases hkk : k = k0
        · subst hkk
          simp [lookupStored, List.find?]
        · simp only [lookupStored, List.find?_cons,
            show ((k, a0).1 == k0) = false by simpa using hkk]
          exact ih hrec k0 hk0
      | err m => rw [hrec] at hok; simp [Res.bind] at hok
      | panicked m => rw [hrec] at hok; simp [Res.bind] at hok
    · rw [if_neg hb] at hok
      have hkk : k ≠ k0 := by
        intro h
        subst h
        exact hb hk0
      have hstep : lookupStored ((k, a0) :: rest) k0 = lookupStored rest k0 := by
        simp only [lookupStored, List.find?_cons,
          show ((k, a0).1 == k0) = false by simpa using hkk]
      rw [hstep]
      split at hok
      · split at hok
        · cases hok
        · split at hok
          · cases hok
          · cases hrec : decryptAttrs key pkInfo rest with
            | ok tail =>
              rw [hrec] at hok
              simp only [Res.bind] at hok
              cases hok
              rename_i decryptedValue hc
              simp only [lookupStored, List.find?_cons,
                show ((k, StoredAttr.av decryptedValue).1 == k0) = false by simpa using hkk]
              exact ih hrec k0 hk0
            | err m => rw [hrec] at hok; simp [Res.bind] at hok
            | panicked m => rw [hrec] at hok; simp [Res.bind] at hok
      · cases hok
      · cases hok

/-- C9: primary-key attributes are never encrypted and never renamed, and
every other attribute keeps its original name: whenever encryptItem
succeeds its output has exactly the input's attribute names in order, and
the partition-key and sort-key names map to the input values unchanged (as
plain attribute values, not ciphertext); whenever decryptItem succeeds the
same holds of its output relative to the stored item. -/
theorem C9_primary_keys_never_encrypted_never_renamed :
    ∀ (s : ClientState) (pkInfo : PrimaryKeyInfo) (item : Item)
      (stored outE : StoredItem) (s2 : ClientState) (outD : StoredItem),
      (encryptItem s pkInfo item = .ok (outE, s2) →
        outE.map Prod.fst = item.map Prod.fst ∧
        ∀ k0, (k0 = pkInfo.partitionKey ∨ k0 = pkInfo.sortKey) →
          lookupStored outE k0 = (lookupAttr item k0).map .av) ∧
      (decryptItem s pkInfo stored = .ok outD →
        outD.map Prod.fst = stored.map Prod.fst ∧
        ∀ k0, (k0 = pkInfo.partitionKey ∨ k0 = pkInfo.sortKey) →
          lookupStored outD k0 = lookupStored stored k0) := by
  intro s pkInfo item stored outE s2 outD
  constructor
  · intro hok
    simp only [encryptItem] at hok
    match hn : constructMaterialName item pkInfo with
    | .err m => rw [hn] at hok; cases hok
    | .panicked m => rw [hn] at hok; cases hok
    | .ok materialName =>
      rw [hn] at hok
      simp only [Res.bind] at hok
      have hout : outE = (encryptAttrs ⟨s.nextKeyId⟩ pkInfo item s.nextNonce).1 := by
        cases hok
        rfl
      subst hout
      exact ⟨encryptAttrs_keys _ pkInfo item s.nextNonce,
        fun k0 hk0 => encryptAttrs_pk_lookup _ pkInfo item s.nextNonce k0 hk0⟩
  · intro hok
    simp only [decryptItem] at hok
    match hn : constructMaterialNameStored stored pkInfo with
    | .err m => rw [hn] at hok; cases hok
    | .panicked m => rw [hn] at hok; cases hok
    | .ok materialName =>
      rw [hn] at hok
      simp only [Res.bind] at hok
      match hf : s.materials.find? (fun p => p.1 == materialName) with
      | none => rw [hf] at hok; cases hok
      | some p =>
        rw [hf] at hok
        exact ⟨decryptAttrs_keys hok, fun k0 hk0 => decryptAttrs_pk_lookup hok k0 hk0⟩

/-- C9 witness: a concrete put with one encrypted attribute and a concrete
get of a primary-key-only item. -/
theorem C9_witness :
    ([(ascii "PK", StoredAttr.av (.S (ascii "u1"))),
        (ascii "Name", StoredAttr.encB
          ⟨0, 0, AttributeValueToBytes (.S (ascii "Alice")), ascii "Name"⟩)].map Prod.fst =
      [(ascii "PK", AttributeValue.S (ascii "u1")),
        (ascii "Name", AttributeValue.S (ascii "Alice"))].map Prod.fst) ∧
    ([(ascii "PK", StoredAttr.av (.S (ascii "u1")))].map Prod.fst =
      [(ascii "PK", StoredAttr.av (.S (ascii "u1")))].map Prod.fst) := by
  have h := C9_primary_keys_never_encrypted_never_renamed
    ⟨0, 0, [(HashString (ascii "T" ++ ascii "-" ++ ascii "u1" ++ []), ⟨0⟩)]⟩
    ⟨ascii "T", ascii "PK", []⟩
    [(ascii "PK", .S (ascii "u1")), (ascii "Name", .S (ascii "Alice"))]
    [(ascii "PK", StoredAttr.av (.S (ascii "u1")))]
    [(ascii "PK", StoredAttr.av (.S (ascii "u1"))),
      (ascii "Name", StoredAttr.encB
        ⟨0, 0, AttributeValueToBytes (.S (ascii "Alice")), ascii "Name"⟩)]
    ⟨1, 1, (HashString (ascii "T" ++ ascii "-" ++ ascii "u1" ++ []), ⟨0⟩) ::
      [(HashString (ascii "T" ++ ascii "-" ++ ascii "u1" ++ []), ⟨0⟩)]⟩
    [(ascii "PK", StoredAttr.av (.S (ascii "u1")))]
  exact ⟨(h.1 rfl).1, (h.2 rfl).1⟩

/-- A non-primary-key attribute present in the item is stored as a binary
ciphertext under the loop's data key, bound to the attribute name. -/
theorem encryptAttrs_nonpk_lookup (key : DataKey) (pkInfo : PrimaryKeyInfo) :
    ∀ (item : Item) (nonce : Nat) (k : GoStr) (v : AttributeValue),
      k ≠ pkInfo.partitionKey → k ≠ pkInfo.sortKey → lookupAttr item k = some v →
      ∃ n2, lookupStored ((encryptAttrs key pkInfo item nonce).1) k =
        some (.encB ⟨key.id, n2, AttributeValueToBytes v, k⟩) := by
  intro item
  induction item with
  | nil => intro nonce k v _ _ hfind; simp [lookupAttr] at hfind
  | cons p rest ih =>
    intro nonce k v hpk hsk hfind
    obtain ⟨k0, v0⟩ := p
    by_cases hkk : k0 = k
    · subst hkk
      have hb : ¬(k0 = pkInfo.partitionKey ∨ k0 = pkInfo.sortKey) := by tauto
      have hv : v0 = v := by
        simpa [lookupAttr, List.find?_cons] using hfind
      subst hv
      refine ⟨nonce, ?_⟩
      simp only [encryptAttrs, if_neg hb]
      simp [lookupStored, List.find?, aeadEncrypt]
    · have hfind2 : lookupAttr rest k = some v := by
        simpa [lookupAttr, List.find?_cons,
          show ((k0, v0).1 == k) = false by simpa using hkk] using hfind
      simp only [encryptAttrs]
      by_cases hb : k0 = pkInfo.partitionKey ∨ k0 = pkInfo.sortKey
      · rw [if_pos hb]
        obtain ⟨n2, hn2⟩ := ih nonce k v hpk hsk hfind2
        refine ⟨n2, ?_⟩
        simpa [lookupStored, List.find?_cons,
          show ((k0, StoredAttr.av v0).1 == k) = false by simpa using hkk] using hn2
      · rw [if_neg hb]
        obtain ⟨n2, hn2⟩ := ih (nonce + 1) k v hpk hsk hfind2
        refine ⟨n2, ?_⟩
        simpa [lookupStored, List.find?_cons,
          show ((k0, StoredAttr.encB
            (aeadEncrypt key nonce (AttributeValueToBytes v0) k0)).1 == k) = false
            by simpa using hkk] using hn2

/-- C3 amended: two sequential encryptItem runs never store equal values
for a non-primary-key attribute present in both items: the client has no
deterministic-encryption path — every non-primary-key attribute is
encrypted with the randomized AEAD of a data keyset generated freshly for
each item — so the two ciphertexts are produced under distinct keysets and
differ, whatever the plaintexts (equal or not). -/
theorem C3_sequential_ciphertexts_differ :
    ∀ (s : ClientState) (pkInfo : PrimaryKeyInfo) (item1 item2 : Item)
      (out1 : StoredItem) (s1 : ClientState) (out2 : StoredItem) (s2 : ClientState)
      (k : GoStr) (v1 v2 : AttributeValue),
      encryptItem s pkInfo item1 = .ok (out1, s1) →
      encryptItem s1 pkInfo item2 = .ok (out2, s2) →
      k ≠ pkInfo.partitionKey → k ≠ pkInfo.sortKey →
      lookupAttr item1 k = some v1 → lookupAttr item2 k = some v2 →
      lookupStored out1 k ≠ lookupStored out2 k := by
  intro s pkInfo item1 item2 out1 s1 out2 s2 k v1 v2 h1 h2 hpk hsk hf1 hf2
  simp only [encryptItem] at h1 h2
  match hn1 : constructMaterialName item1 pkInfo with
  | .err m => rw [hn1] at h1; cases h1
  | .panicked m => rw [hn1] at h1; cases h1
  | .ok name1 =>
    rw [hn1] at h1
    simp only [Res.bind] at h1
    have hout1 : out1 = (encryptAttrs ⟨s.nextKeyId⟩ pkInfo item1 s.nextNonce).1 := by
      cases h1; rfl
    have hs1 : s1.nextKeyId = s.nextKeyId + 1 := by
      cases h1; rfl
    match hn2 : constructMaterialName item2 pkInfo with
    | .err m => rw [hn2] at h2; cases h2
    | .panicked m => rw [hn2] at h2; cases h2
    | .ok name2 =>
      rw [hn2] at h2
      simp only [Res.bind] at h2
      have hout2 : out2 = (encryptAttrs ⟨s1.nextKeyId⟩ pkInfo item2 s1.nextNonce).1 := by
        cases h2; rfl
      obtain ⟨n1, hl1⟩ :=
        encryptAttrs_nonpk_lookup ⟨s.nextKeyId⟩ pkInfo item1 s.nextNonce k v1 hpk hsk hf1
      obtain ⟨n2, hl2⟩ :=
        encryptAttrs_nonpk_lookup ⟨s1.nextKeyId⟩ pkInfo item2 s1.nextNonce k v2 hpk hsk hf2
      rw [hout1, hout2, hl1, hl2]
      intro heq
      have : s.nextKeyId = s1.nextKeyId := by
        have h3 := congrArg (fun o => match o with
          | some (StoredAttr.encB c) => c.keyId
          | _ => 0) heq
        simpa using h3
      omega

/-- C3 counterexample: the claim asserts the stored Email binaries of the
two items are equal; on the concrete pair of items of the specification's
scenario they differ. -/
theorem C3_counterexample :
    lookupStored ((encryptAttrs ⟨0⟩ ⟨ascii "T", ascii "PK", []⟩
        [(ascii "PK", .S (ascii "u#1")), (ascii "Email", .S (ascii "a@x"))] 0).1)
        (ascii "Email") ≠
      lookupStored ((encryptAttrs ⟨1⟩ ⟨ascii "T", ascii "PK", []⟩
        [(ascii "PK", .S (ascii "u#2")), (ascii "Email", .S (ascii "a@x"))] 1).1)
        (ascii "Email") := by
  have h := C3_sequential_ciphertexts_differ ⟨0, 0, []⟩ ⟨ascii "T", ascii "PK", []⟩
    [(ascii "PK", .S (ascii "u#1")), (ascii "Email", .S (ascii "a@x"))]
    [(ascii "PK", .S (ascii "u#2")), (ascii "Email", .S (ascii "a@x"))]
    ((encryptAttrs ⟨0⟩ ⟨ascii "T", ascii "PK", []⟩
      [(ascii "PK", .S (ascii "u#1")), (ascii "Email", .S (ascii "a@x"))] 0).1)
    ⟨1, 1, [(HashString (ascii "T" ++ ascii "-" ++ ascii "u#1" ++ []), ⟨0⟩)]⟩
    ((encryptAttrs ⟨1⟩ ⟨ascii "T", ascii "PK", []⟩
      [(ascii "PK", .S (ascii "u#2")), (ascii "Email", .S (ascii "a@x"))] 1).1)
    ⟨2, 2, [(HashString (ascii "T" ++ ascii "-" ++ ascii "u#2" ++ []), ⟨1⟩),
      (HashString (ascii "T" ++ ascii "-" ++ ascii "u#1" ++ []), ⟨0⟩)]⟩
    (ascii "Email") (.S (ascii "a@x")) (.S (ascii "a@x"))
    rfl rfl (by decide) (by decide) (by simp [lookupAttr, ascii]) (by simp [lookupAttr, ascii])
  exact h

/-- C3 witness for the amended theorem at a second concrete input. -/
theorem C3_witness :
    lookupStored ((encryptAttrs ⟨5⟩ ⟨ascii "T2", ascii "Id", []⟩
        [(ascii "Id", .S (ascii "a")), (ascii "Data", .N (ascii "1"))] 7).1)
        (ascii "Data") ≠
      lookupStored ((encryptAttrs ⟨6⟩ ⟨ascii "T2", ascii "Id", []⟩
        [(ascii "Id", .S (ascii "b")), (ascii "Data", .N (ascii "1"))] 8).1)
        (ascii "Data") :=
  C3_sequential_ciphertexts_differ ⟨5, 7, []⟩ ⟨ascii "T2", ascii "Id", []⟩
    [(ascii "Id", .S (ascii "a")), (ascii "Data", .N (ascii "1"))]
    [(ascii "Id", .S (ascii "b")), (ascii "Data", .N (ascii "1"))]
    ((encryptAttrs ⟨5⟩ ⟨ascii "T2", ascii "Id", []⟩
      [(ascii "Id", .S (ascii "a")), (ascii "Data", .N (ascii "1"))] 7).1)
    ⟨6, 8, [(HashString (ascii "T2" ++ ascii "-" ++ ascii "a" ++ []), ⟨5⟩)]⟩
    ((encryptAttrs ⟨6⟩ ⟨ascii "T2", ascii "Id", []⟩
      [(ascii "Id", .S (ascii "b")), (ascii "Data", .N (ascii "1"))] 8).1)
    ⟨7, 9, [(HashString (ascii "T2" ++ ascii "-" ++ ascii "b" ++ []), ⟨6⟩),
      (HashString (ascii "T2" ++ ascii "-" ++ ascii "a" ++ []), ⟨5⟩)]⟩
    (ascii "Data") (.N (ascii "1")) (.N (ascii "1"))
    rfl rfl (by decide) (by decide) (by simp [lookupAttr, ascii]) (by simp [lookupAttr, ascii])

/-- C1: Get after Put does not return the original item.  On the concrete
item with partition key PK = u#1 and one string attribute Name = Alice,
encryptItem stores Name as the AEAD encryption of the JSON bytes
json.Marshal produces for the member struct — the document with the single
field Value — and decryptItem, after correctly recovering exactly those
plaintext bytes, rebuilds them through a generic map, returning Name as the
map attribute wrapping Value = Alice instead of the original string
attribute.  The decrypted item is therefore not equal to the original
(under any equality that preserves the top-level attribute type), although
every byte of plaintext was recovered: the defect is the
AttributeValueToBytes / BytesToAttributeValue pair, which is not an
inverse pair (json.Marshal of the struct against json.Unmarshal into a
generic map). -/
theorem C1_get_after_put_wraps_values :
    encryptItem ⟨0, 0, []⟩ ⟨ascii "T", ascii "PK", []⟩
        [(ascii "PK", .S (ascii "u#1")), (ascii "Name", .S (ascii "Alice"))] =
      .ok ([(ascii "PK", StoredAttr.av (.S (ascii "u#1"))),
          (ascii "Name", StoredAttr.encB
            ⟨0, 0, AttributeValueToBytes (.S (ascii "Alice")), ascii "Name"⟩)],
        ⟨1, 1, [(HashString (ascii "T" ++ ascii "-" ++ ascii "u#1" ++ []), ⟨0⟩)]⟩) ∧
    decryptItem ⟨1, 1, [(HashString (ascii "T" ++ ascii "-" ++ ascii "u#1" ++ []), ⟨0⟩)]⟩
        ⟨ascii "T", ascii "PK", []⟩
        [(ascii "PK", StoredAttr.av (.S (ascii "u#1"))),
          (ascii "Name", StoredAttr.encB
            ⟨0, 0, AttributeValueToBytes (.S (ascii "Alice")), ascii "Name"⟩)] =
      .ok [(ascii "PK", StoredAttr.av (.S (ascii "u#1"))),
        (ascii "Name", StoredAttr.av (.M [(ascii "Value", .S (ascii "Alice"))]))] ∧
    [(ascii "PK", StoredAttr.av (.S (ascii "u#1"))),
        (ascii "Name", StoredAttr.av (.M [(ascii "Value", .S (ascii "Alice"))]))] ≠
      asStored [(ascii "PK", .S (ascii "u#1")), (ascii "Name", .S (ascii "Alice"))] := by
  refine ⟨rfl, ?_, ?_⟩
  · simp [decryptItem, constructMaterialNameStored, lookupStored, HashString, ascii,
      Res.bind, decryptAttrs, aeadDecrypt, BytesToAttributeValue, AttributeValueToBytes,
      attributeValueToJSON, interfaceToAttributeValue, interfaceFieldsToAttributeValues,
      valueKey, List.find?]
  · simp [asStored, ascii]

/-- C6: DecryptionMaterials returns materials only after the signature over
the raw (base64-decoded) wrapped-keyset bytes verifies with the stored
public key, and a failed verification — false, or a verifier error — yields
an error and no materials.  First conjunct: a successful call exhibits the
retrieved record, all three base64 decodes, a verification that returned
true, and the unwrapped key the materials carry.  Second conjunct: when the
record retrieves and decodes but verification does not return true, the
call returns an error. -/
theorem C6_decryption_materials_require_valid_signature :
    ∀ (retrieve : Except String (List (GoStr × GoStr) × GoStr))
      (verify : GoStr → GoStr → GoStr → Except String Bool)
      (unwrap : GoStr → Except String TinkDelegatedKey),
      (∀ m, awsDecryptionMaterials retrieve verify unwrap = .ok m →
        ∃ desc wrappedB64 wrapped pub sig key,
          retrieve = .ok (desc, wrappedB64) ∧
          base64Decode wrappedB64 = .ok wrapped ∧
          base64Decode (lookupDesc desc (ascii "PublicKey")) = .ok pub ∧
          base64Decode (lookupDesc desc (ascii "Signature")) = .ok sig ∧
          verify pub sig wrapped = .ok true ∧
          unwrap wrapped = .ok key ∧
          m = NewDecryptionMaterials desc (some key)) ∧
      (∀ desc wrappedB64 wrapped pub sig,
        retrieve = .ok (desc, wrappedB64) →
        base64Decode wrappedB64 = .ok wrapped →
        base64Decode (lookupDesc desc (ascii "PublicKey")) = .ok pub →
        base64Decode (lookupDesc desc (ascii "Signature")) = .ok sig →
        verify pub sig wrapped ≠ .ok true →
        awsDecryptionMaterials retrieve verify unwrap =
          .error "failed to verify the wrapped keyset signature") := by
  intro retrieve verify unwrap
  constructor
  · intro m hok
    simp only [awsDecryptionMaterials] at hok
    match hr : retrieve with
    | .error e => simp [hr] at hok
    | .ok (desc, wrappedB64) =>
      simp only [hr] at hok
      match hw : base64Decode wrappedB64 with
      | .error e => simp [hw] at hok
      | .ok wrapped =>
        simp only [hw] at hok
        match hp : base64Decode (lookupDesc desc (ascii "PublicKey")) with
        | .error e => simp [hp] at hok
        | .ok pub =>
          simp only [hp] at hok
          match hg : base64Decode (lookupDesc desc (ascii "Signature")) with
          | .error e => simp [hg] at hok
          | .ok sig =>
            simp only [hg] at hok
            match hv : verify pub sig wrapped with
            | .error e => simp [hv] at hok
            | .ok false => simp [hv] at hok
            | .ok true =>
              simp only [hv] at hok
              match hu : unwrap wrapped with
              | .error e => simp [hu] at hok
              | .ok key =>
                simp only [hu, Except.ok.injEq] at hok
                exact ⟨desc, wrappedB64, wrapped, pub, sig, key,
                  rfl, hw, hp, hg, hv, hu, hok.symm⟩
  · intro desc wrappedB64 wrapped pub sig hr hw hp hg hv
    simp only [awsDecryptionMaterials, hr, hw, hp, hg]
    match hvv : verify pub sig wrapped with
    | .error e => rfl
    | .ok false => rfl
    | .ok true => exact absurd hvv hv

/-- C6 witness: a concrete record whose three base64 fields are empty, a
verifier that accepts, and an unwrap returning an AES-GCM key; the call
succeeds with a verification that returned true, and the same record with
a rejecting verifier yields the signature error. -/
theorem C6_witness :
    (fun (_ _ _ : GoStr) => (Except.ok true : Except String Bool)) [] [] [] =
      Except.ok true ∧
    awsDecryptionMaterials (.ok ([], []))
        (fun _ _ _ => .ok false) (fun _ => .ok ⟨KeysetKind.aes256Gcm⟩) =
      .error "failed to verify the wrapped keyset signature" := by
  have h1 := (C6_decryption_materials_require_valid_signature (.ok ([], []))
    (fun _ _ _ => .ok true) (fun _ => .ok ⟨KeysetKind.aes256Gcm⟩)).1
    (NewDecryptionMaterials [] (some ⟨KeysetKind.aes256Gcm⟩)) rfl
  obtain ⟨desc, wb, w, p, g, key, hr, hw, hp, hg, hv, hu, hm⟩ := h1
  have h2 := (C6_decryption_materials_require_valid_signature (.ok ([], []))
    (fun _ _ _ => .ok false) (fun _ => .ok ⟨KeysetKind.aes256Gcm⟩)).2
    [] [] [] [] [] rfl rfl rfl rfl (by intro h; cases h)
  refine ⟨?_, h2⟩
  simp only [Except.ok.injEq, Prod.mk.injEq] at hr
  obtain ⟨hdesc, hwb⟩ := hr
  subst hdesc
  subst hwb
  simp only [show base64Decode [] = Except.ok [] from rfl, Except.ok.injEq] at hw
  subst hw
  simp only [show lookupDesc [] (ascii "PublicKey") = [] from rfl,
    show lookupDesc [] (ascii "Signature") = [] from rfl,
    show base64Decode [] = Except.ok [] from rfl, Except.ok.injEq] at hp hg
  subst hp
  subst hg
  exact hv

/-- Contiguity of the versions stored under one material name: exactly the
versions one through n are present. -/
def ContigVersions (tbl : MetaTable) (name : GoStr) (n : Nat) : Prop :=
  ∀ v, v ∈ versionsOf tbl name ↔ 1 ≤ v ∧ v ≤ n

theorem foldr_max_le {l : List Nat} {n : Nat} (h : ∀ v ∈ l, v ≤ n) :
    l.foldr max 0 ≤ n := by
  induction l with
  | nil => exact Nat.zero_le n
  | cons a t ih =>
    simp only [List.foldr_cons]
    exact max_le (h a (List.mem_cons_self a t)) (ih (fun v hv => h v (List.mem_cons_of_mem a hv)))

theorem le_foldr_max {l : List Nat} {v : Nat} (h : v ∈ l) : v ≤ l.foldr max 0 := by
  induction l with
  | nil => cases h
  | cons a t ih =>
    simp only [List.foldr_cons]
    rcases List.mem_cons.mp h with h1 | h1
    · subst h1; exact le_max_left _ _
    · exact le_trans (ih h1) (le_max_right _ _)

/-- Under the contiguity invariant the descending limit-one query returns
exactly n. -/
theorem getLastVersion_of_contig {tbl : MetaTable} {name : GoStr} {n : Nat}
    (h : ContigVersions tbl name n) : getLastVersion tbl name = n := by
  unfold getLastVersion
  rcases Nat.eq_zero_or_pos n with hn | hn
  · subst hn
    have : versionsOf tbl name = [] := by
      apply List.eq_nil_iff_forall_not_mem.mpr
      intro v hv
      have := (h v).mp hv
      omega
    rw [this]
    rfl
  · have h1 : (versionsOf tbl name).foldr max 0 ≤ n :=
      foldr_max_le (fun v hv => ((h v).mp hv).2)
    have h2 : n ≤ (versionsOf tbl name).foldr max 0 :=
      le_foldr_max ((h n).mpr ⟨hn, le_refl n⟩)
    omega

/-- Under the invariant there is no row at version n + 1 yet. -/
theorem find_next_none {tbl : MetaTable} {name : GoStr} {n : Nat}
    (h : ContigVersions tbl name n) :
    tbl.find? (fun it => it.materialName == name && it.version == n + 1) = none := by
  cases hf : tbl.find? (fun it => it.materialName == name && it.version == n + 1) with
  | none => rfl
  | some it =>
    exfalso
    have hp := List.find?_some hf
    have hmem := List.mem_of_find?_eq_some hf
    simp only [Bool.and_eq_true, beq_iff_eq] at hp
    have hv : it.version ∈ versionsOf tbl name := by
      simp only [versionsOf, List.mem_map]
      exact ⟨it, List.mem_filter.mpr ⟨hmem, by simp [hp.1]⟩, rfl⟩
    have := (h it.version).mp hv
    omega

/-- C5: StoreNewMaterial computes the next version as the greatest existing
version plus one (one when none exists) and performs the conditional put
whose condition is equivalent to the absence of a row at the new version.
First conjunct: under the invariant that the versions stored for the name
are exactly one through n (with unique table keys), the call succeeds,
appends precisely the row (name, n + 1), keeps keys unique, and the
versions for the name become exactly one through n + 1 — so sequential
StoreNewMaterial calls keep versions strictly increasing and contiguous
from one, with at most one row per version.  Second conjunct: whenever a
row already exists at the version the put targets — the condition-failure
case, reachable when a concurrent writer stored that version between the
version query and the transaction — the conditional put returns the
transaction (version-conflict) error. -/
theorem C5_store_new_material_versioning :
    (∀ (tbl : MetaTable) (name desc : GoStr) (n : Nat),
      WFMeta tbl → ContigVersions tbl name n →
      StoreNewMaterial tbl name desc = .ok (⟨name, n + 1, desc⟩ :: tbl) ∧
      WFMeta (⟨name, n + 1, desc⟩ :: tbl) ∧
      ContigVersions (⟨name, n + 1, desc⟩ :: tbl) name (n + 1)) ∧
    (∀ (tbl : MetaTable) (name desc : GoStr) (v : Nat) (it : MetaItem),
      tbl.find? (fun it => it.materialName == name && it.version == v) = some it →
      conditionalPutMaterial tbl name desc v =
        .error "transaction failed: conditional check failed") := by
  constructor
  · intro tbl name desc n hwf hcontig
    have hlast : getLastVersion tbl name = n := getLastVersion_of_contig hcontig
    have hnewv : (if getLastVersion tbl name ≠ 0 then getLastVersion tbl name + 1 else 1) =
        n + 1 := by
      rw [hlast]
      rcases Nat.eq_zero_or_pos n with hn | hn
      · subst hn; rfl
      · rw [if_pos (by omega)]
    have hfind := find_next_none hcontig
    have hfilter : List.filter
        (fun it => !(it.materialName == name && it.version == n + 1)) tbl = tbl := by
      apply List.filter_eq_self.mpr
      intro it hit
      cases hpred : (it.materialName == name && it.version == n + 1) with
      | false => simp
      | true => exact absurd hpred (List.find?_eq_none.mp hfind it hit)
    have hok : StoreNewMaterial tbl name desc = .ok (⟨name, n + 1, desc⟩ :: tbl) := by
      unfold StoreNewMaterial conditionalPutMaterial
      simp [hnewv, hfind, hfilter]
      intro a ha
      have := List.find?_eq_none.mp hfind a ha
      simp at this
      tauto
    refine ⟨hok, ?_, ?_⟩
    · unfold WFMeta
      simp only [List.map_cons, List.nodup_cons]
      refine ⟨?_, hwf⟩
      intro hmem
      obtain ⟨it, hit, hkey⟩ := List.mem_map.mp hmem
      have h1 : it.materialName = name := congrArg Prod.fst hkey
      have h2 : it.version = n + 1 := congrArg Prod.snd hkey
      have := List.find?_eq_none.mp hfind it hit
      simp [h1, h2] at this
    · intro v
      have hver : versionsOf (⟨name, n + 1, desc⟩ :: tbl) name =
          (n + 1) :: versionsOf tbl name := by
        simp [versionsOf, List.filter_cons]
      rw [hver]
      constructor
      · intro hv
        rcases List.mem_cons.mp hv with h1 | h1
        · omega
        · have := (hcontig v).mp h1
          omega
      · intro hv
        by_cases h1 : v = n + 1
        · subst h1; exact List.mem_cons_self _ _
        · exact List.mem_cons_of_mem _ ((hcontig v).mpr (by omega))
  · intro tbl name desc v it hf
    have hp := List.find?_some hf
    simp only [Bool.and_eq_true, beq_iff_eq] at hp
    unfold conditionalPutMaterial
    simp only [hf]
    have hlt : ¬(it.version < v) := by omega
    simp [hlt]

/-- C5 witness: two sequential stores from the empty table produce exactly
versions one and two under the name, and a conditional put targeting a
version that a concurrent writer already stored fails with the conflict
error. -/
theorem C5_witness :
    StoreNewMaterial [] (ascii "mat") (ascii "d1") =
      .ok [⟨ascii "mat", 1, ascii "d1"⟩] ∧
    StoreNewMaterial [⟨ascii "mat", 1, ascii "d1"⟩] (ascii "mat") (ascii "d2") =
      .ok [⟨ascii "mat", 2, ascii "d2"⟩, ⟨ascii "mat", 1, ascii "d1"⟩] ∧
    ContigVersions [⟨ascii "mat", 2, ascii "d2"⟩, ⟨ascii "mat", 1, ascii "d1"⟩]
      (ascii "mat") 2 ∧
    conditionalPutMaterial [⟨ascii "mat", 1, ascii "d1"⟩] (ascii "mat") (ascii "d4") 1 =
      .error "transaction failed: conditional check failed" := by
  have hc0 : ContigVersions [] (ascii "mat") 0 := by
    intro v
    simp [versionsOf]
    omega
  have h1 := C5_store_new_material_versioning.1 [] (ascii "mat") (ascii "d1") 0
    (by simp [WFMeta]) hc0
  have h2 := C5_store_new_material_versioning.1 [⟨ascii "mat", 1, ascii "d1"⟩]
    (ascii "mat") (ascii "d2") 1 h1.2.1 h1.2.2
  have h3 := C5_store_new_material_versioning.2
    [⟨ascii "mat", 1, ascii "d1"⟩] (ascii "mat") (ascii "d4") 1
    ⟨ascii "mat", 1, ascii "d1"⟩ (by simp [List.find?])
  exact ⟨h1.1, h2.1, h2.2.2, h3⟩

/-- C2 amended: for every well-formed value all of whose number strings are
plain decimal literals already in float64-canonical form (at most 15
significant digits; this excludes the Inf, NaN, underscored and hexadecimal
spellings the float64 parser rewrites, and numbers such as 1.10 whose
trailing zero it drops), the
deserializer inverts the serializer up to set and map order normalization;
and the serialized bytes depend only on the order-normalized value, so two
values with the same entries in different set or map insertion orders
serialize to identical byte strings. -/
theorem C2_roundtrip_and_determinism :
    (∀ v : AttributeValue, wfA v = true → numbersSafeA v = true →
      ∃ w, deserializeAttribute (serializeAttribute v) = some w ∧
        fullNorm w = fullNorm v) ∧
    (∀ v w : AttributeValue, fullNorm v = fullNorm w →
      serializeAttribute v = serializeAttribute w) := by
  constructor
  · intro v hwf hsafe
    refine ⟨normAttr v, deserializeAttribute_serializeAttribute v hwf, ?_⟩
    rw [normAttr_eq_fullNorm v hsafe, fullNorm_idem]
  · intro v w h
    exact serializeAttribute_eq_of_fullNorm_eq h

/-- C2 counterexample: the claim as stated quantifies over numbers such as
1.10; decoding the encoding of the number attribute 1.10 yields the number
1.1 — the serializer's float64 canonicalization dropped the trailing zero —
which differs from the original even under set and map order
normalization. -/
theorem C2_counterexample :
    deserializeAttribute (serializeAttribute (.N (ascii "1.10"))) =
      some (.N (ascii "1.1")) ∧
    fullNorm (AttributeValue.N (ascii "1.1")) ≠ fullNorm (.N (ascii "1.10")) := by
  constructor
  · have hwf : wfA (AttributeValue.N (ascii "1.10")) = true := by
      simp [wfA, transformNumberValue, parseDec, formatDecCanonical, isDigit, ascii]
    have h := deserializeAttribute_serializeAttribute (.N (ascii "1.10")) hwf
    rw [h]
    simp [normAttr, transformNumberValue, parseDec, formatDecCanonical, isDigit, ascii]
  · simp [fullNorm, ascii]

/-- C2 witness: a concrete map with a string set and a canonical number
round-trips to its order-normalized form, and the string set serialized
from two insertion orders gives identical bytes. -/
theorem C2_witness :
    (deserializeAttribute (serializeAttribute
        (.M [(ascii "b", .N (ascii "1.5")), (ascii "a", .SS [ascii "y", ascii "x"])])) =
      some (.M [(ascii "a", .SS [ascii "x", ascii "y"]), (ascii "b", .N (ascii "1.5"))]) ∧
      fullNorm (AttributeValue.M [(ascii "a", .SS [ascii "x", ascii "y"]),
          (ascii "b", .N (ascii "1.5"))]) =
        fullNorm (.M [(ascii "b", .N (ascii "1.5")), (ascii "a", .SS [ascii "y", ascii "x"])])) ∧
    serializeAttribute (.SS [ascii "y", ascii "x"]) =
      serializeAttribute (.SS [ascii "x", ascii "y"]) := by
  have hwf : wfA (AttributeValue.M [(ascii "b", .N (ascii "1.5")),
      (ascii "a", .SS [ascii "y", ascii "x"])]) = true := by
    simp [wfA, wfEntries, transformNumberValue, parseDec, formatDecCanonical, isDigit, ascii]
  have hsafe : numbersSafeA (AttributeValue.M [(ascii "b", .N (ascii "1.5")),
      (ascii "a", .SS [ascii "y", ascii "x"])]) = true := by
    simp [numbersSafeA, numbersSafeEntries, NumberSafe, sigDigits,
      transformNumberValue, parseDec, formatDecCanonical, isDigit, ascii]
  obtain ⟨w, hw1, hw2⟩ := C2_roundtrip_and_determinism.1 _ hwf hsafe
  have he : deserializeAttribute (serializeAttribute
      (.M [(ascii "b", .N (ascii "1.5")), (ascii "a", .SS [ascii "y", ascii "x"])])) =
      some (.M [(ascii "a", .SS [ascii "x", ascii "y"]), (ascii "b", .N (ascii "1.5"))]) := by
    simp [serializeAttribute, serializeKeyedEntries, serializeString, serializeNumber,
      serializeSet, transformNumberValue, parseDec, formatDecCanonical, isDigit,
      encodeValue, encodeLength, ascii, tagString, tagNumber, tagMap, tagStringSet,
      fstLE, BytesLE, bytesLe, List.insertionSort, List.orderedInsert,
      deserializeAttribute, deserialize, deserializeEntries, decodeTag, decodeByte,
      decodeValue, decodeLength, decodeSetMembers,
      tagBinary, tagNull, tagBoolean, tagList, tagBinarySet, tagNumberSet]
  rw [he] at hw1
  have hw : w = .M [(ascii "a", .SS [ascii "x", ascii "y"]), (ascii "b", .N (ascii "1.5"))] :=
    (Option.some.injEq .. ▸ hw1 : _ = w).symm
  subst hw
  refine ⟨⟨he, hw2⟩, ?_⟩
  apply C2_roundtrip_and_determinism.2
  simp [fullNorm, fullNormEntries, ascii, BytesLE, bytesLe, List.insertionSort,
    List.orderedInsert]

end DDBEnc
